import Mathlib

/-!
Verification of the mediawiki-entity-parser extraction pipeline.

This file gives a shallow embedding, in Lean 4, of the pure core of the
Python sources:

* `text_utils.py`   — markup cleanup primitives and the pattern-based
                      `meaning_to_camel_case` name deriver;
* `extract.py`      — `parse_wikitable`, `parse_entities_table`,
                      `_find_section_lines`, `_parse_section_by_name`;
* `inheritance_utils.py` — `topological_sort` and `calculate_base_index`;
* `analyze_complete.py`  — the entity-change detection of
                      `analyze_entity_changes`.

Modelling conventions, used throughout:

* Python strings are modelled as `String` / `List Char`.  The Python
  whitespace class `\s` (and `str.strip`) is modelled by the six ASCII
  whitespace characters; the inputs of interest are wiki text lines.
* Python `re.sub` is modelled by a left-to-right scanner (`scanSubF`)
  together with one matcher per pattern.  Each matcher implements the
  exact backtracking behaviour of its pattern (worked out case by case in
  comments at the matcher).  Every pattern used by the sources matches at
  least one character, so a fuel of `input length` is exact.
* The regex anchor `$` is modelled as end-of-string.  (Python `$` also
  matches just before a single trailing newline; the strings reaching
  these patterns are single lines produced by `str.split("\n")`, which
  contain no newline.)
* Python `dict`s are modelled as association lists updated in place
  (`updAssoc`), preserving insertion order like CPython dicts.
* Python `set`s have no specified iteration order.  Wherever the source
  iterates over a set (`topological_sort`), the model fixes discovery
  order and the fact is recorded in a comment at the definition.
-/

/-! ### Character and string primitives -/

/-- ASCII whitespace, modelling Python's `\s` / `str.strip` class. -/
def isWsChar (c : Char) : Bool :=
  c == ' ' || c == '\t' || c == '\n' || c == '\r' || c == '\x0b' || c == '\x0c'

/-- ASCII decimal digit, modelling `\d` / `str.isdigit` on ASCII input. -/
def isDigitChar (c : Char) : Bool := '0' ≤ c && c ≤ '9'

/-- ASCII letter, modelling the regex class `[A-Za-z]`. -/
def isAlphaChar (c : Char) : Bool :=
  ('A' ≤ c && c ≤ 'Z') || ('a' ≤ c && c ≤ 'z')

/-- Lower-case a character (ASCII), modelling `str.lower` per character. -/
def lcChar (c : Char) : Char :=
  if 'A' ≤ c && c ≤ 'Z' then Char.ofNat (c.toNat + 32) else c

/-- Upper-case a character (ASCII), modelling `str.upper` per character. -/
def ucChar (c : Char) : Char :=
  if 'a' ≤ c && c ≤ 'z' then Char.ofNat (c.toNat - 32) else c

/-- Case-insensitive character comparison, for `re.IGNORECASE` literals. -/
def ciEq (c d : Char) : Bool := lcChar c == lcChar d

/-- `str.strip()` on a character list (ASCII whitespace). -/
def pyStripL (cs : List Char) : List Char :=
  ((cs.dropWhile isWsChar).reverse.dropWhile isWsChar).reverse

/-- `str.lower()` on a character list. -/
def pyLowerL (cs : List Char) : List Char := cs.map lcChar

/-- `str.capitalize()` on a character list: first character upper-cased,
the rest lower-cased (Python lowercases the tail). -/
def pyCapitalizeL : List Char → List Char
  | [] => []
  | c :: cs => ucChar c :: pyLowerL cs

/-- Case-insensitive literal match at the head of the input. -/
def ciStarts : List Char → List Char → Bool
  | [], _ => true
  | _ :: _, [] => false
  | l :: ls, c :: cs => ciEq l c && ciStarts ls cs

/-- Case-sensitive literal match at the head of the input. -/
def litStarts : List Char → List Char → Bool
  | [], _ => true
  | _ :: _, [] => false
  | l :: ls, c :: cs => (l == c) && litStarts ls cs

/-- `str.startswith` on strings. -/
def pyStartsWith (s pre : String) : Bool := litStarts pre.data s.data

/-- `str.endswith` on character lists. -/
def pyEndsWith (cs suf : List Char) : Bool := litStarts suf.reverse cs.reverse

/-! ### The `re.sub` scanner

`scanSubF f fuel cs` scans `cs` left to right.  At each position it asks
the matcher `f` for a match starting there; a match `(r, rest)` emits the
replacement `r` and resumes scanning at `rest` (the text after the match),
exactly like `re.sub` (replacements are not rescanned).  All matchers used
below consume at least one character of input, so `fuel = cs.length`
suffices and the fuel case is never hit on those matchers. -/
def scanSubF (f : List Char → Option (List Char × List Char)) :
    Nat → List Char → List Char
  | 0, cs => cs
  | _ + 1, [] => []
  | fuel + 1, c :: cs =>
    match f (c :: cs) with
    | some (r, rest) => r ++ scanSubF f fuel rest
    | none => c :: scanSubF f fuel cs

/-- Run a substitution over the whole input. -/
def runSub (f : List Char → Option (List Char × List Char))
    (cs : List Char) : List Char :=
  scanSubF f cs.length cs

/-! ### `text_utils.strip_code_tags`

Pattern `<code[^>]*>(.*?)</code>` replaced by group 1.  The lazy group
`(.*?)` (with `.` not matching newline) takes the shortest body up to the
first `</code>`; a newline before any `</code>` kills the match. -/

/-- Scan for the closing `</code>`, accumulating the lazy body; fail on a
newline or end of input before the closer. -/
def findCodeClose : List Char → Option (List Char × List Char)
  | [] => none
  | c :: cs =>
    if litStarts "</code>".data (c :: cs) then
      some ([], (c :: cs).drop 7)
    else if c == '\n' then none
    else match findCodeClose cs with
      | some (body, rest) => some (c :: body, rest)
      | none => none

/-- Matcher for `<code[^>]*>(.*?)</code>`; returns (group 1, rest). -/
def codeTagMatch (cs : List Char) : Option (List Char × List Char) :=
  if litStarts "<code".data cs then
    let afterOpen := cs.drop 5
    let attrs := afterOpen.takeWhile (fun c => c != '>')
    match afterOpen.drop attrs.length with
    | '>' :: afterGt => findCodeClose afterGt
    | _ => none
  else none

def stripCodeTagsL (cs : List Char) : List Char := runSub codeTagMatch cs

/-- `strip_code_tags` of `text_utils.py`. -/
def strip_code_tags (s : String) : String := ⟨stripCodeTagsL s.data⟩

/-! ### `text_utils.strip_wikilinks`

Two sequential passes: `\[\[([^|\]]+)\|([^\]]+)\]\]` → group 2, then
`\[\[([^\]]+)\]\]` → group 1.  In both, a greedy negated class followed by
a literal admits no backtracking: the run is the maximal run and the
literal must follow it directly. -/

/-- Matcher for `\[\[([^|\]]+)\|([^\]]+)\]\]`, replaced by group 2. -/
def pipedLinkMatch (cs : List Char) : Option (List Char × List Char) :=
  if litStarts "[[".data cs then
    let rest := cs.drop 2
    let tgt := rest.takeWhile (fun c => c != '|' && c != ']')
    if tgt.isEmpty then none
    else match rest.drop tgt.length with
      | '|' :: afterBar =>
        let lbl := afterBar.takeWhile (fun c => c != ']')
        if lbl.isEmpty then none
        else match afterBar.drop lbl.length with
          | ']' :: ']' :: after => some (lbl, after)
          | _ => none
      | _ => none
  else none

/-- Matcher for `\[\[([^\]]+)\]\]`, replaced by group 1. -/
def bareLinkMatch (cs : List Char) : Option (List Char × List Char) :=
  if litStarts "[[".data cs then
    let rest := cs.drop 2
    let tgt := rest.takeWhile (fun c => c != ']')
    if tgt.isEmpty then none
    else match rest.drop tgt.length with
      | ']' :: ']' :: after => some (tgt, after)
      | _ => none
  else none

def stripWikilinksL (cs : List Char) : List Char :=
  runSub bareLinkMatch (runSub pipedLinkMatch cs)

/-- `strip_wikilinks` of `text_utils.py`. -/
def strip_wikilinks (s : String) : String := ⟨stripWikilinksL s.data⟩

/-! ### `text_utils.strip_templates`

Four sequential passes (all `re.IGNORECASE` where letters occur):
`\{\{\s*Metadata\s+type\|([^}]+)\}\}` → group 1,
`\{\{\s*Metadata\s+id\|([^}]*)\}\}` → group 1,
`\{\{\s*Type\|([^}]+)\}\}` → group 1,
then `\{\{[^}]*\}\}` → deleted. -/

/-- Match the case-insensitive keyword sequence `kws` separated by `\s+`,
then the literal `|`.  Returns the rest after the bar.  (Keywords begin
with letters, so the greedy whitespace runs admit no backtracking.) -/
def tmplKeyHead : List (List Char) → List Char → Option (List Char)
  | [], cs =>
    match cs with
    | '|' :: rest => some rest
    | _ => none
  | k :: ks, cs =>
    if ciStarts k cs then
      let cs2 := cs.drop k.length
      match ks with
      | [] =>
        match cs2 with
        | '|' :: rest => some rest
        | _ => none
      | _ :: _ =>
        match cs2 with
        | c :: _ =>
          if isWsChar c then tmplKeyHead ks (cs2.dropWhile isWsChar) else none
        | [] => none
    else none

/-- Matcher for a keyword template `\{\{\s*K1\s+K2...\|([^}]+)\}\}` (ci),
replaced by group 1; `allowEmptyGroup` distinguishes `[^}]*` from `[^}]+`. -/
def tmplExtractMatch (kws : List (List Char)) (allowEmptyGroup : Bool)
    (cs : List Char) : Option (List Char × List Char) :=
  if litStarts "\x7b\x7b".data cs then
    match tmplKeyHead kws ((cs.drop 2).dropWhile isWsChar) with
    | some afterBar =>
      let grp := afterBar.takeWhile (fun c => c != '\x7d')
      if grp.isEmpty && !allowEmptyGroup then none
      else match afterBar.drop grp.length with
        | '\x7d' :: '\x7d' :: after => some (grp, after)
        | _ => none
    | none => none
  else none

/-- Matcher for `\{\{[^}]*\}\}`, deleted. -/
def anyTmplMatch (cs : List Char) : Option (List Char × List Char) :=
  if litStarts "\x7b\x7b".data cs then
    let body := (cs.drop 2).takeWhile (fun c => c != '\x7d')
    match (cs.drop 2).drop body.length with
    | '\x7d' :: '\x7d' :: after => some ([], after)
    | _ => none
  else none

def stripTemplatesL (cs : List Char) : List Char :=
  runSub anyTmplMatch
    (runSub (tmplExtractMatch ["Type".data] false)
      (runSub (tmplExtractMatch ["Metadata".data, "id".data] true)
        (runSub (tmplExtractMatch ["Metadata".data, "type".data] false) cs)))

/-- `strip_templates` of `text_utils.py`. -/
def strip_templates (s : String) : String := ⟨stripTemplatesL s.data⟩

/-! ### `text_utils.normalize_whitespace`

`re.sub(r"\s+", " ", text)` then `str.strip()`. -/

/-- Collapse every maximal whitespace run to one space.  The flag records
whether the previous character was part of a whitespace run. -/
def collapseWsAux : Bool → List Char → List Char
  | _, [] => []
  | prevWs, c :: cs =>
    if isWsChar c then
      if prevWs then collapseWsAux true cs
      else ' ' :: collapseWsAux true cs
    else c :: collapseWsAux false cs

def normalizeWsL (cs : List Char) : List Char :=
  pyStripL (collapseWsAux false cs)

/-- `normalize_whitespace` of `text_utils.py` (the `if not text` guard is
the identity on the empty string). -/
def normalize_whitespace (s : String) : String := ⟨normalizeWsL s.data⟩

/-! ### `text_utils.cleanup_cell_text`

Composition, in source order: code tags, wikilinks, templates, leading
`rowspan`/`colspan` attribute, leading `style` attribute, HTML tags,
whitespace normalization. -/

/-- Matcher for `<[^>]+>`, deleted. -/
def htmlTagMatch (cs : List Char) : Option (List Char × List Char) :=
  match cs with
  | '<' :: rest =>
    let body := rest.takeWhile (fun c => c != '>')
    if body.isEmpty then none
    else match rest.drop body.length with
      | '>' :: after => some ([], after)
      | _ => none
  | _ => none

/-- The optional `"?` of the attribute patterns: drop one leading quote.
(A quote present must be taken: `\d` and `\|` cannot match `"`.) -/
def unquoteHead : List Char → List Char
  | '"' :: r => r
  | r => r

/-- The `\|\s*` tail of the rowspan/colspan pattern: on success return
the input after the bar and the whitespace run, else the original cell
unchanged. -/
def attrBarTail (cs rest3 : List Char) : List Char :=
  match rest3 with
  | '|' :: r => r.dropWhile isWsChar
  | _ => cs

/-- The `\d+"?\|\s*` tail of the rowspan/colspan pattern. -/
def attrDigitsTail (cs rest1 : List Char) : List Char :=
  if (rest1.takeWhile isDigitChar).isEmpty then cs
  else attrBarTail cs
    (unquoteHead (rest1.drop (rest1.takeWhile isDigitChar).length))

/-- `^(?:rowspan|colspan)="?\d+"?\|\s*` deleted once at position 0 (the
two keywords have equal length, so the rest is `cs.drop 8` either way). -/
def stripRowColAttrL (cs : List Char) : List Char :=
  if litStarts "rowspan=".data cs || litStarts "colspan=".data cs then
    attrDigitsTail cs (unquoteHead (cs.drop 8))
  else cs

/-- The `"\|\s*` tail of the style pattern. -/
def styleBodyTail (cs rest2 : List Char) : List Char :=
  match rest2 with
  | '"' :: '|' :: r => r.dropWhile isWsChar
  | _ => cs

/-- `^style="[^"]*"\|\s*` (ci) deleted once at position 0. -/
def stripStyleAttrL (cs : List Char) : List Char :=
  if ciStarts "style=\"".data cs then
    styleBodyTail cs
      ((cs.drop 7).drop ((cs.drop 7).takeWhile (fun c => c != '"')).length)
  else cs

def stripHtmlTagsL (cs : List Char) : List Char := runSub htmlTagMatch cs

def cleanupCellL (cs : List Char) : List Char :=
  normalizeWsL
    (stripHtmlTagsL
      (stripStyleAttrL
        (stripRowColAttrL
          (stripTemplatesL (stripWikilinksL (stripCodeTagsL cs))))))

/-- `cleanup_cell_text` of `text_utils.py` (the `if not text` guard is the
identity on the empty string). -/
def cleanup_cell_text (s : String) : String := ⟨cleanupCellL s.data⟩

/-! ### `text_utils.meaning_to_camel_case` (pattern-based path)

The source first tries an optional NLP-based converter; the spec treats
the naming layer as "one deterministic pattern-based implementation
guaranteed always available".  We embed that guaranteed path
(`text_utils.py` lines 85-201, reached when the NLP import is
unavailable or raises). -/

/-- Can what remains match `\s*.*$` with `$` = end of string?  True iff
every character up to the last newline (if any) is whitespace: the `\s*`
part must absorb all newlines, `.*` the newline-free tail. -/
def wsThenNoNl : List Char → Bool
  | [] => true
  | c :: cs => if (c :: cs).contains '\n' then isWsChar c && wsThenNoNl cs else true

/-- Matcher for `\s*\([^)]*\)`, deleted. -/
def parenMatch (cs : List Char) : Option (List Char × List Char) :=
  let ws := cs.takeWhile isWsChar
  match cs.drop ws.length with
  | '(' :: r =>
    let body := r.takeWhile (fun c => c != ')')
    match r.drop body.length with
    | ')' :: after => some ([], after)
    | _ => none
  | _ => none

/-- Matcher for `\s*\{[^}]*\}`, deleted. -/
def braceMatch (cs : List Char) : Option (List Char × List Char) :=
  let ws := cs.takeWhile isWsChar
  match cs.drop ws.length with
  | '\x7b' :: r =>
    let body := r.takeWhile (fun c => c != '\x7d')
    match r.drop body.length with
    | '\x7d' :: after => some ([], after)
    | _ => none
  | _ => none

/-- Matcher for `\s*\[[^\]]*\]`, deleted. -/
def bracketMatch (cs : List Char) : Option (List Char × List Char) :=
  let ws := cs.takeWhile isWsChar
  match cs.drop ws.length with
  | '[' :: r =>
    let body := r.takeWhile (fun c => c != ']')
    match r.drop body.length with
    | ']' :: after => some ([], after)
    | _ => none
  | _ => none

/-- Matcher for `\s*\*[^*]*(?:\*|$)`, deleted.  After the maximal run of
non-`*` characters the next character is `*` or the end of input, so the
alternation always succeeds. -/
def starMatch (cs : List Char) : Option (List Char × List Char) :=
  let ws := cs.takeWhile isWsChar
  match cs.drop ws.length with
  | '*' :: r =>
    let body := r.takeWhile (fun c => c != '*')
    match r.drop body.length with
    | '*' :: after => some ([], after)
    | _ => some ([], [])
  | _ => none

/-- Matcher for `[;:]\s*.*$`, deleted (truncates to end of string). -/
def semiColonMatch (cs : List Char) : Option (List Char × List Char) :=
  match cs with
  | c :: rest =>
    if (c == ';' || c == ':') && wsThenNoNl rest then some ([], []) else none
  | [] => none

/-- Matcher for `\?\s*.*$`, deleted. -/
def questionMatch (cs : List Char) : Option (List Char × List Char) :=
  match cs with
  | '?' :: rest => if wsThenNoNl rest then some ([], []) else none
  | _ => none

/-- Matcher for `\.\s+.*$`, deleted (drops a secondary sentence). -/
def dotMatch (cs : List Char) : Option (List Char × List Char) :=
  match cs with
  | '.' :: c :: rest =>
    if isWsChar c && wsThenNoNl rest then some ([], []) else none
  | _ => none

/-- Matcher for `\s*-\s*.*$`, deleted. -/
def dashMatch (cs : List Char) : Option (List Char × List Char) :=
  let ws := cs.takeWhile isWsChar
  match cs.drop ws.length with
  | '-' :: rest => if wsThenNoNl rest then some ([], []) else none
  | _ => none

/-- `^kw\s+` (ci) removed once at position 0 (`re.sub` with `^` and no
MULTILINE flag substitutes at most once, at the start). -/
def dropCiKeyHead (kw : List Char) (cs : List Char) : List Char :=
  if ciStarts kw cs then
    match cs.drop kw.length with
    | c :: rest => if isWsChar c then (c :: rest).dropWhile isWsChar else cs
    | [] => cs
  else cs

/-- `^number\s+of\s+` (ci) removed once at position 0. -/
def dropNumberOfHead (cs : List Char) : List Char :=
  if ciStarts "number".data cs then
    match cs.drop 6 with
    | c :: rest =>
      if isWsChar c then
        let cs2 := (c :: rest).dropWhile isWsChar
        if ciStarts "of".data cs2 then
          match cs2.drop 2 with
          | d :: rest2 =>
            if isWsChar d then (d :: rest2).dropWhile isWsChar else cs
          | [] => cs
        else cs
      else cs
    | [] => cs
  else cs

/-- `re.findall(r"[A-Za-z]+", text)`: the maximal runs of letters. -/
def wordsOfAux : List Char → List Char → List (List Char)
  | [], acc => if acc.isEmpty then [] else [acc.reverse]
  | c :: cs, acc =>
    if isAlphaChar c then wordsOfAux cs (c :: acc)
    else if acc.isEmpty then wordsOfAux cs []
    else acc.reverse :: wordsOfAux cs []

def wordsOf (cs : List Char) : List (List Char) := wordsOfAux cs []

/-- The common-filler-word set of `meaning_to_camel_case`. -/
def fillerWords : List (List Char) :=
  ["a".data, "an".data, "the".data, "of".data, "in".data, "on".data,
   "at".data, "to".data, "for".data, "with".data, "by".data, "that".data,
   "which".data, "used".data]

/-- `first.lower() + "".join(w.capitalize() for w in rest)`. -/
def camelJoin : List (List Char) → List Char
  | [] => []
  | w :: ws => pyLowerL w ++ (ws.map pyCapitalizeL).flatten

/-- The default branch of `meaning_to_camel_case` ("smart word selection
based on semantic density"); also reached from the ID/Entity branch when
no meaningful word remains. -/
def m2ccDefault (words : List (List Char)) : List Char :=
  let totalChars := (words.map List.length).sum
  let maxWords :=
    if totalChars ≤ 15 then words.length
    else if totalChars ≤ 25 then 4
    else 3
  let finalWords := words.take maxWords
  if finalWords.length == 1 then pyLowerL (finalWords.headD [])
  else camelJoin finalWords

/-- The quote characters removed by `re.sub(r"['\"`]", "", text)`:
apostrophe, double quote, backtick. -/
def isQuoteChar (c : Char) : Bool :=
  c == Char.ofNat 39 || c == '"' || c == Char.ofNat 96

/-- The text-transformation part of `meaning_to_camel_case`: strip, quote
removal, bracketed-span removal, truncation rules, leading-phrase
removal, final strip. -/
def m2ccCleanText (meaning : List Char) : List Char :=
  let t := pyStripL meaning
  let t := t.filter (fun c => !isQuoteChar c)
  let t := runSub parenMatch t
  let t := runSub braceMatch t
  let t := runSub bracketMatch t
  let t := runSub starMatch t
  let t := runSub semiColonMatch t
  let t := runSub questionMatch t
  let t := runSub dotMatch t
  let t := runSub dashMatch t
  let t := dropCiKeyHead "the".data t
  let t := dropNumberOfHead t
  let t := dropCiKeyHead "total".data t
  pyStripL t

/-- The time/measurement suffix set of `meaning_to_camel_case`. -/
def timeSuffixes : List (List Char) :=
  ["timer".data, "time".data, "ticks".data, "duration".data, "delay".data,
   "level".data, "state".data, "type".data, "variant".data, "mode".data]

/-- The boolean-prefix branch (`first_word in ["is", "has", "can"]`). -/
def m2ccBooleanBranch (firstWord : List Char) (wrest : List (List Char)) :
    List Char :=
  if wrest.isEmpty then firstWord
  else firstWord ++ ((wrest.take 4).map pyCapitalizeL).flatten

/-- The time/measurement-suffix branch (`last_word in time_suffixes`).
`words` is the full word list, `lastWord` its lowered last word. -/
def m2ccTimeBranch (words : List (List Char)) (lastWord : List Char) :
    List Char :=
  if 1 < words.length then
    let maxPre :=
      if lastWord == "timer".data || lastWord == "time".data
          || lastWord == "ticks".data then 3 else 2
    let preWords := (words.dropLast).take maxPre
    if preWords.isEmpty then lastWord
    else
      let base := camelJoin preWords
      if lastWord == "timer".data || lastWord == "ticks".data then
        base ++ pyCapitalizeL lastWord
      else if lastWord == "time".data then base ++ "Time".data
      else if lastWord == "level".data || lastWord == "state".data
          || lastWord == "type".data || lastWord == "variant".data
          || lastWord == "mode".data then
        base ++ pyCapitalizeL lastWord
      else base
  else lastWord

/-- The ID/Entity branch; falls back to the default branch when no
meaningful word remains. -/
def m2ccIdEntityBranch (words : List (List Char)) : List Char :=
  let wordsLower := words.map pyLowerL
  let meaningful := words.filter
    (fun w => pyLowerL w != "id".data && pyLowerL w != "entity".data)
  if meaningful.isEmpty then m2ccDefault words
  else
    let base := camelJoin (meaningful.take 3)
    if wordsLower.contains "id".data then
      if !base.isEmpty && !pyEndsWith base "Id".data then base ++ "Id".data
      else if !base.isEmpty then base
      else "id".data
    else
      if !base.isEmpty && !pyEndsWith base "Entity".data then
        base ++ "Entity".data
      else if !base.isEmpty then base
      else "entity".data

/-- The branch dispatch of `meaning_to_camel_case` on the filtered word
list (`text_utils.py` lines 123-201). -/
def m2ccFromWords (w0 : List Char) (wrest : List (List Char)) : List Char :=
  if pyLowerL w0 == "is".data || pyLowerL w0 == "has".data
      || pyLowerL w0 == "can".data then
    m2ccBooleanBranch (pyLowerL w0) wrest
  else if timeSuffixes.contains (pyLowerL ((w0 :: wrest).getLastD [])) then
    m2ccTimeBranch (w0 :: wrest) (pyLowerL ((w0 :: wrest).getLastD []))
  else if ((w0 :: wrest).map pyLowerL).contains "id".data
      || ((w0 :: wrest).map pyLowerL).contains "entity".data then
    m2ccIdEntityBranch (w0 :: wrest)
  else m2ccDefault (w0 :: wrest)

/-- `meaning_to_camel_case`, pattern-based path, on character lists. -/
def meaningToCamelCaseL (meaning : List Char) : List Char :=
  if meaning.isEmpty then "field".data
  else if (wordsOf (m2ccCleanText meaning)).isEmpty then "field".data
  else
    match (wordsOf (m2ccCleanText meaning)).filter
        (fun w => !fillerWords.contains (pyLowerL w)) with
    | [] => "field".data
    | w0 :: wrest => m2ccFromWords w0 wrest

/-- `meaning_to_camel_case` of `text_utils.py` (pattern-based path). -/
def meaning_to_camel_case (s : String) : String := ⟨meaningToCamelCaseL s.data⟩

/-! ### `extract.parse_wikitable`

Line classification happens on the stripped line; in order: close marker
`^\|\}`, row separator `^\|-`, header cell `^!\s*(.*)`, data cell
`^\|\s*(.*)`, then non-empty non-`|` lines continue the previous cell.
The function returns `(index of the line after the close marker, table)`;
with no close marker it runs to end of input. -/

structure WikiTable where
  headers : List String
  rows : List (List String)
deriving DecidableEq, Repr

def isEndLine (s : List Char) : Bool := litStarts "|\x7d".data s

def isRowSepLine (s : List Char) : Bool := litStarts "|-".data s

/-- `^\{\|\s*class="wikitable"` (ci), `WIKITABLE_START_PATTERN`. -/
def isWikitableStartL (s : List Char) : Bool :=
  litStarts "\x7b|".data s &&
    ciStarts "class=\"wikitable\"".data ((s.drop 2).dropWhile isWsChar)

/-- Group 1 of `^!\s*(.*)` / `^\|\s*(.*)` applied after the marker:
skip the whitespace run, then `.*` runs to the next newline. -/
def cellGroup (afterMark : List Char) : List Char :=
  (afterMark.dropWhile isWsChar).takeWhile (fun c => c != '\n')

/-- `current_row[-1] += " " + text` when the row is non-empty. -/
def updLastCell : List String → String → List String
  | [], _ => []
  | [c], add => [c ++ " " ++ add]
  | c :: cs, add => c :: updLastCell cs add

/-- The scan loop of `parse_wikitable` over the lines after the opening
tag.  Returns `(consumed + 1, headers, rows)` where `consumed` counts the
lines scanned up to and including a close marker (or all of them). -/
def pwAux : List String → List String → List String → List (List String) →
    Nat × List String × List (List String)
  | [], _cur, hs, rs => (1, hs, rs)
  | l :: t, cur, hs, rs =>
    let s := pyStripL l.data
    if isEndLine s then
      (1, hs, if cur.isEmpty then rs else rs ++ [cur])
    else if isRowSepLine s then
      let r := pwAux t [] hs (if cur.isEmpty then rs else rs ++ [cur])
      (r.1 + 1, r.2)
    else if litStarts "!".data s then
      let r := pwAux t cur (hs ++ [⟨cleanupCellL (cellGroup (s.drop 1))⟩]) rs
      (r.1 + 1, r.2)
    else if litStarts "|".data s then
      let r := pwAux t (cur ++ [⟨cleanupCellL (cellGroup (s.drop 1))⟩]) hs rs
      (r.1 + 1, r.2)
    else if !s.isEmpty && !litStarts "|".data s then
      let r := pwAux t (updLastCell cur ⟨cleanupCellL s⟩) hs rs
      (r.1 + 1, r.2)
    else
      let r := pwAux t cur hs rs
      (r.1 + 1, r.2)

/-- `parse_wikitable` of `extract.py`. -/
def parse_wikitable (lines : List String) (start_index : Nat) :
    Nat × WikiTable :=
  let r := pwAux (lines.drop (start_index + 1)) [] [] []
  (start_index + 1 + r.1, ⟨r.2.1, r.2.2⟩)

/-! ### `extract.parse_entities_table` -/

/-- `typeIndex` is heterogeneous: a parsed integer or the raw label. -/
structure Entity where
  type_index : Sum Nat String
  name : String
  bounding_box_xz : String
  bounding_box_y : String
deriving DecidableEq, Repr

/-- `int(...)` on a digit string. -/
def digitsToNat (cs : List Char) : Nat :=
  cs.foldl (fun n c => 10 * n + (c.toNat - 48)) 0

/-- `str.isdigit` (ASCII): non-empty and all decimal digits. -/
def pyIsDigitL (cs : List Char) : Bool := !cs.isEmpty && cs.all isDigitChar

/-- Matcher for `</?code>`, deleted (the entity-id cleanup of line 90). -/
def codeMarkMatch (cs : List Char) : Option (List Char × List Char) :=
  if litStarts "<code>".data cs then some ([], cs.drop 6)
  else if litStarts "</code>".data cs then some ([], cs.drop 7)
  else none

def removeCodeMarks (s : String) : String := ⟨runSub codeMarkMatch s.data⟩

/-- In-place-or-append update of an association list: CPython dict
assignment (overwrite keeps the original insertion position). -/
def updAssoc {α : Type} (m : List (String × α)) (k : String) (v : α) :
    List (String × α) :=
  match m with
  | [] => [(k, v)]
  | (k0, v0) :: rest =>
    if k0 = k then (k, v) :: rest else (k0, v0) :: updAssoc rest k v

/-- The entity built from one table row with at least 5 cells
(`extract.py` lines 82-102), with its key. -/
def entityFromRow (row : List String) : String × Entity :=
  let type_text := row.getD 0 ""
  let entity_id := removeCodeMarks (row.getD 4 "")
  let type_index : Sum Nat String :=
    if type_text != "" && pyIsDigitL (pyStripL type_text.data) then
      Sum.inl (digitsToNat (pyStripL type_text.data))
    else Sum.inr type_text
  (entity_id,
   { type_index := type_index,
     name := row.getD 1 "",
     bounding_box_xz := row.getD 2 "",
     bounding_box_y := row.getD 3 "" })

/-- The row loop of `parse_entities_table` over one table's rows. -/
def entityRowsFold (acc : List (String × Entity)) (rows : List (List String)) :
    List (String × Entity) :=
  rows.foldl
    (fun m row =>
      if 5 ≤ row.length then
        let ke := entityFromRow row
        updAssoc m ke.1 ke.2
      else m)
    acc

/-- The line scan of `parse_entities_table`.  The index advances by at
least one per step, so `lines.length + 1` fuel is never exhausted. -/
def petAux (lines : List String) : Nat → Nat → List (String × Entity) →
    List (String × Entity)
  | 0, _, acc => acc
  | fuel + 1, i, acc =>
    if i < lines.length then
      let s := pyStripL (lines.getD i "").data
      if isWikitableStartL s then
        let r := parse_wikitable lines i
        petAux lines fuel r.1 (entityRowsFold acc r.2.rows)
      else petAux lines fuel (i + 1) acc
    else acc

/-- `parse_entities_table` of `extract.py`. -/
def parse_entities_table (lines : List String) : List (String × Entity) :=
  petAux lines (lines.length + 1) 0 []

/-! ### `inheritance_utils`: inheritance map, topological sort, base index -/

/-- The inheritance map: value `none` is an explicit "no parent"
declaration, a missing key is an undeclared section.  CPython dict. -/
def InheritMap : Type := List (String × Option String)

/-- `inherit_map.get(section)`: `None` both for a missing key and for an
explicit no-parent entry. -/
def getParent (m : InheritMap) (s : String) : Option String :=
  match List.lookup s (m : List (String × Option String)) with
  | some p => p
  | none => none

/-- The dependency edge recorded for `section` by the graph-building loop
(`inheritance_utils.py` lines 52-56): its parent, if the parent is truthy
and a known section name. -/
def edgeOf (names : List String) (m : InheritMap) (s : String) :
    Option String :=
  match getParent m s with
  | some p => if p != "" && names.contains p then some p else none
  | none => none

/-- First-occurrence deduplication (insertion order of a CPython set). -/
def dedupAux {α : Type} [BEq α] : List α → List α → List α
  | _, [] => []
  | seen, x :: xs =>
    if seen.contains x then dedupAux seen xs
    else x :: dedupAux (x :: seen) xs

def dedupFirst {α : Type} [BEq α] (l : List α) : List α := dedupAux [] l

/-- `dependents[p]`: the sections depending on `p`.  The source stores a
`set` and iterates it; set iteration order is unspecified in Python, the
model fixes discovery (insertion) order. -/
def dependentsOf (names : List String) (m : InheritMap) (p : String) :
    List String :=
  dedupFirst (names.filter (fun s => edgeOf names m s == some p))

/-- `dependencies[s]` at the start of Kahn's algorithm (a set of at most
one parent, as each section records at most one edge). -/
def depsInit (names : List String) (m : InheritMap) : String → List String :=
  fun s => (edgeOf names m s).toList

/-- The inner loop body over `dependents[current]`: discard `current`
from the child's dependency set and enqueue the child if it emptied. -/
def freeChild (current child : String)
    (dq : (String → List String) × List String) :
    (String → List String) × List String :=
  let d2 : String → List String :=
    fun s => if s = child then (dq.1 child).filter (fun p => p != current)
             else dq.1 s
  let q2 := if (d2 child).isEmpty then dq.2 ++ [child] else dq.2
  (d2, q2)

/-- Kahn's main loop: pop FIFO, append to the order, free dependents.
Every section is enqueued at most once from the initial scan or once by
its unique freeing pop, so `2 * names.length + 1` fuel is never
exhausted. -/
def kahnLoop (names : List String) (m : InheritMap) :
    Nat → List String → List String → (String → List String) → List String
  | 0, srt, _, _ => srt
  | fuel + 1, srt, queue, deps =>
    match queue with
    | [] => srt
    | current :: qrest =>
      let dq := (dependentsOf names m current).foldl
        (fun dq child => freeChild current child dq) (deps, qrest)
      kahnLoop names m fuel (srt ++ [current]) dq.2 dq.1

/-- The Kahn phase of `topological_sort`: the order produced before the
leftover (cycle) handling. -/
def kahn (names : List String) (m : InheritMap) : List String :=
  kahnLoop names m (2 * names.length + 1) []
    (names.filter (fun s => (depsInit names m s).isEmpty))
    (depsInit names m)

/-- `topological_sort` of `inheritance_utils.py`.  The leftover sections
(`set(section_names) - set(sorted_sections)`) are appended by iterating a
CPython set, whose order is unspecified (hash-based, randomized across
runs); the model fixes discovery order, which is also the order the spec
prescribes.  Facts that depend on this choice are flagged where used. -/
def topological_sort (names : List String) (m : InheritMap) : List String :=
  let k := kahn names m
  k ++ dedupFirst (names.filter (fun s => !k.contains s))

/-- The parent-chain walk of `calculate_base_index` (`while current and
current not in visited`): the walk stops on a falsy current — the only
falsy string being the empty one — or on a revisit.  Each step adds a
new name to `visited` and at most one step leaves the key set, so
`m.length + 1` fuel is never exhausted. -/
def chainFromF (m : InheritMap) : Nat → List String → Option String →
    List String
  | 0, _, _ => []
  | _ + 1, _, none => []
  | fuel + 1, visited, some c =>
    if c == "" || visited.contains c then []
    else c :: chainFromF m fuel (c :: visited) (getParent m c)

/-! ### `extract._parse_section_by_name` and friends -/

structure BitFlag where
  mask : String
  meaning : String
  name : String
deriving DecidableEq, Repr

/-- One field row (`row_obj` of `extract.py`).  `meaning`/`name` are
`Option`s because the bitmask folding deletes those dict keys; `bitmask`
is the (possibly absent, then never-empty) list of bit flags. -/
structure MetaField where
  index : Int
  type : String
  default : String
  meaning : Option String
  name : Option String
  bitmask : List BitFlag
deriving DecidableEq, Repr

structure SectionData where
  inherits : Option String
  fields : List MetaField
deriving DecidableEq, Repr

/-- `by_name_result.setdefault(name, ..default..)`. -/
def setdefaultSec (res : List (String × SectionData)) (k : String) :
    List (String × SectionData) :=
  if (List.lookup k res).isSome then res else res ++ [(k, ⟨none, []⟩)]

/-- `len(parsed_sections[a].get("fields", []))` guarded by membership. -/
def recordedFieldCount (parsed : List (String × SectionData)) (a : String) :
    Nat :=
  match List.lookup a parsed with
  | some d => d.fields.length
  | none => 0

/-- `calculate_base_index` of `inheritance_utils.py`: walk the parent
chain with a visited set, then sum the recorded field counts root-first
(the reversal orders the additions; the sum is the same). -/
def calculate_base_index (section_name : String) (m : InheritMap)
    (parsed : List (String × SectionData)) : Nat :=
  (((chainFromF m (List.length (m : List (String × Option String)) + 1) []
      (getParent m section_name)).reverse).map
    (recordedFieldCount parsed)).sum

def isHexDigitChar (c : Char) : Bool :=
  isDigitChar c || ('a' ≤ c && c ≤ 'f') || ('A' ≤ c && c ≤ 'F')

/-- `re.match(r"^0x[0-9A-Fa-f]+$", s)` (`$` = end of string; cells are
single-line cleaned text). -/
def isHexLit (s : String) : Bool :=
  litStarts "0x".data s.data && !(s.data.drop 2).isEmpty &&
    (s.data.drop 2).all isHexDigitChar

/-- The row-scan state of `_parse_section_by_name`: the fields appended
by this call, `index_counter`, and whether `last_main_row` is set (it is
exactly when `fields` here is non-empty: both start empty and only
regular rows set it). -/
structure SectionScan where
  fields : List MetaField
  counter : Int
  hasLast : Bool
deriving DecidableEq, Repr

def updateLastField : List MetaField → (MetaField → MetaField) →
    List MetaField
  | [], _ => []
  | [f], g => [g f]
  | f :: fs, g => f :: updateLastField fs g

/-- The bitmask folding (`extract.py` lines 178-191): delete the parent's
`meaning` and `name` keys and append one `BitFlag`. -/
def foldBitFlag (c0 c1 : String) (f : MetaField) : MetaField :=
  { f with meaning := none, name := none,
           bitmask := f.bitmask ++ [⟨c0, c1, meaning_to_camel_case c1⟩] }

/-- One iteration of the row loop of `_parse_section_by_name`
(lines 169-206). -/
def sectionRowStep (st : SectionScan) (cells : List String) : SectionScan :=
  if cells.length == 2 && isHexLit (cells.headD "") && st.hasLast then
    { st with
      fields := updateLastField st.fields
        (foldBitFlag (cells.headD "") (cells.getD 1 "")) }
  else
    let idx := st.counter + 1
    let meaningCell := cells.getD 2 ""
    let fld : MetaField :=
      { index := idx,
        type := cells.getD 1 "Unknown",
        default :=
          if 4 < cells.length then cells.getD 4 ""
          else (cells.getLast?).getD "",
        meaning := some meaningCell,
        name := some
          (if 2 < cells.length && meaningCell != "" then
            meaning_to_camel_case meaningCell
          else "field" ++ toString idx),
        bitmask := [] }
    { fields := st.fields ++ [fld], counter := idx, hasLast := true }

def processRows (st : SectionScan) (rows : List (List String)) :
    SectionScan :=
  rows.foldl sectionRowStep st

/-- The line walk of `_parse_section_by_name` between the section header
and `end_line`: skip "no additional metadata" lines, parse wikitables,
skip everything else.  The index advances by at least one per step, so
`endLine + 1` fuel is never exhausted. -/
def sectionLinesLoop (lines : List String) (endLine : Nat) :
    Nat → Nat → SectionScan → SectionScan
  | 0, _, st => st
  | fuel + 1, i, st =>
    if i < endLine then
      if litStarts "no additional metadata".data
          (pyLowerL (pyStripL (lines.getD i "").data)) then
        sectionLinesLoop lines endLine fuel (i + 1) st
      else if isWikitableStartL (pyStripL (lines.getD i "").data) then
        sectionLinesLoop lines endLine fuel (parse_wikitable lines i).1
          (processRows st (parse_wikitable lines i).2.rows)
      else sectionLinesLoop lines endLine fuel (i + 1) st
    else st

/-- `SECTION_HEADER_RE` = `^===\s*(.+?)\s*===\s*$` on an already-stripped
line (every caller matches it against `line.strip()`, so the trailing
`\s*` is empty): it matches iff the line has length ≥ 7 and starts and
ends with `===`.  All callers pass the group through
`normalize_whitespace`, under which the whitespace-split ambiguity of the
lazy group disappears: `normalize(group)` = `normalize(middle)`.  We
return the normalized name. -/
def sectionHeaderName (s : List Char) : Option String :=
  if 7 ≤ s.length && litStarts "===".data s &&
      litStarts "===".data (s.drop (s.length - 3)) then
    some ⟨normalizeWsL ((s.drop 3).take (s.length - 6))⟩
  else none

/-- The scan of `_find_section_lines`: the last header matching the name
before a different header sets `start_line` (`-1` sentinel modelled as
`none`); the first other header after it sets `end_line` and stops. -/
def fslAux (name : String) : List String → Nat → Option Nat → Nat →
    Option Nat × Nat
  | [], _, st, total => (st, total)
  | l :: t, i, st, total =>
    match sectionHeaderName (pyStripL l.data) with
    | some nm =>
      if nm = name then fslAux name t (i + 1) (some i) total
      else
        match st with
        | some s0 => (some s0, i)
        | none => fslAux name t (i + 1) none total
    | none => fslAux name t (i + 1) st total

/-- `_find_section_lines` of `extract.py`. -/
def find_section_lines (lines : List String) (name : String) :
    Option Nat × Nat :=
  fslAux name lines 0 none lines.length

/-- `_parse_section_by_name` of `extract.py`: locate the span, ensure the
section entry exists, compute the base index from the inheritance chain,
scan the span's tables, and append the produced fields to the entry. -/
def parse_section_by_name (lines : List String) (section_name : String)
    (by_name_result : List (String × SectionData)) (m : InheritMap) :
    List (String × SectionData) :=
  match find_section_lines lines section_name with
  | (none, _) => by_name_result
  | (some startLine, endLine) =>
    match List.lookup section_name
        (setdefaultSec by_name_result section_name) with
    | some d =>
      updAssoc (setdefaultSec by_name_result section_name) section_name
        ⟨d.inherits, d.fields ++
          (sectionLinesLoop lines endLine (endLine + 1) (startLine + 1)
            ⟨[], (calculate_base_index section_name m
              (setdefaultSec by_name_result section_name) : Int) - 1,
              false⟩).fields⟩
    | none => setdefaultSec by_name_result section_name

/-! ### `analyze_complete.analyze_entity_changes` (change detection) -/

/-- Of each per-version JSON document, only the `entities` mapping is
consulted by `analyze_entity_changes`. -/
structure VersionDoc where
  entities : List (String × Entity)
deriving DecidableEq, Repr

def insertSorted (x : String) : List String → List String
  | [] => [x]
  | y :: ys => if x ≤ y then x :: y :: ys else y :: insertSorted x ys

/-- `sorted(...)` over strings (lexicographic). -/
def sortStrings (l : List String) : List String := l.foldr insertSorted []

/-- `versions = sorted(version_data.keys())`. -/
def sortedVersions (vd : List (String × VersionDoc)) : List String :=
  sortStrings (vd.map Prod.fst)

/-- `all_entities`: the sorted union of entity ids over all versions. -/
def allEntityIds (vd : List (String × VersionDoc)) : List String :=
  sortStrings (dedupFirst ((vd.map (fun p => p.2.entities.map Prod.fst)).flatten))

/-- The compared 3-tuple `(type_index, bounding_box_xz, bounding_box_y)`. -/
def tuple3 (e : Entity) : (Sum Nat String) × String × String :=
  (e.type_index, e.bounding_box_xz, e.bounding_box_y)

/-- `entity_versions`: per sorted version, the entity or `None`. -/
def entityVersions (vd : List (String × VersionDoc)) (versions : List String)
    (eid : String) : List (Option Entity) :=
  versions.map (fun v =>
    match List.lookup v vd with
    | some doc => List.lookup eid doc.entities
    | none => none)

/-- The change test of `analyze_entity_changes` (lines 61-75): more than
one distinct value tuple among the present versions, or present in some
version and absent from another. -/
def entityHasChanges (vs : List (Option Entity)) : Bool :=
  let valuesSet := dedupFirst (vs.filterMap (fun o => o.map tuple3))
  let notAllPresent := vs.any (fun o => o.isNone)
  let hasSome := vs.any (fun o => o.isSome)
  1 < valuesSet.length || (notAllPresent && hasSome)

/-- The entity ids collected into `entities_with_changes`. -/
def entitiesWithChanges (vd : List (String × VersionDoc)) : List String :=
  (allEntityIds vd).filter
    (fun e => entityHasChanges (entityVersions vd (sortedVersions vd) e))

/-! ## Helper lemmas -/

theorem isEmpty_false_ne_nil {α : Type} {l : List α}
    (h : l.isEmpty = false) : l ≠ [] := by
  cases l <;> simp_all

theorem wordsOfAux_ne_nil (cs : List Char) :
    ∀ acc w, w ∈ wordsOfAux cs acc → w ≠ [] := by
  induction cs with
  | nil =>
    intro acc w hw
    simp only [wordsOfAux] at hw
    split at hw
    · exact absurd hw (List.not_mem_nil w)
    · rename_i hne
      have hw' : w = acc.reverse := by simpa using hw
      subst hw'
      intro hc
      rw [List.reverse_eq_nil_iff] at hc
      subst hc
      simp at hne
  | cons c cs ih =>
    intro acc w hw
    simp only [wordsOfAux] at hw
    split at hw
    · exact ih _ _ hw
    · split at hw
      · exact ih _ _ hw
      · rename_i h1 h2
        rcases List.mem_cons.mp hw with h | h
        · subst h
          intro hc
          rw [List.reverse_eq_nil_iff] at hc
          subst hc
          simp at h2
        · exact ih _ _ h

theorem wordsOf_ne_nil {cs : List Char} {w : List Char}
    (hw : w ∈ wordsOf cs) : w ≠ [] :=
  wordsOfAux_ne_nil cs [] w hw

theorem getLastD_mem_of_ne_nil {α : Type} :
    ∀ (l : List α) (d : α), l ≠ [] → l.getLastD d ∈ l
  | [], _, h => absurd rfl h
  | [x], d, _ => by simp [List.getLastD]
  | x :: y :: ys, d, _ => by
    have hmem := getLastD_mem_of_ne_nil (y :: ys) x (by simp)
    rw [List.getLastD_cons]
    exact List.mem_cons_of_mem x hmem

theorem pyLowerL_ne_nil {w : List Char} (h : w ≠ []) : pyLowerL w ≠ [] := by
  simpa [pyLowerL] using h

theorem pyCapitalizeL_ne_nil {w : List Char} (h : w ≠ []) :
    pyCapitalizeL w ≠ [] := by
  cases w with
  | nil => exact absurd rfl h
  | cons c cs => simp [pyCapitalizeL]

theorem camelJoin_ne_nil {w : List Char} {ws : List (List Char)}
    (h : w ≠ []) : camelJoin (w :: ws) ≠ [] := by
  simp [camelJoin, pyLowerL_ne_nil h]

theorem m2ccDefault_ne_nil (w0 : List Char) (wrest : List (List Char))
    (h0 : w0 ≠ []) :
    m2ccDefault (w0 :: wrest) ≠ [] := by
  have key : ∀ k : Nat, 0 < k →
      (if ((List.take k (w0 :: wrest)).length == 1) = true then
        pyLowerL ((List.take k (w0 :: wrest)).headD [])
      else camelJoin (List.take k (w0 :: wrest))) ≠ [] := by
    intro k hk
    have ht : List.take k (w0 :: wrest) = w0 :: List.take (k - 1) wrest := by
      cases k with
      | zero => omega
      | succ n => simp
    rw [ht]
    split
    · simpa using pyLowerL_ne_nil h0
    · exact camelJoin_ne_nil h0
  simp only [m2ccDefault]
  split
  · exact key _ (by simp)
  · split
    · exact key _ (by omega)
    · exact key _ (by omega)

theorem camelJoin_ne_nil_of (l : List (List Char)) (hne : l ≠ [])
    (h : ∀ w ∈ l, w ≠ []) : camelJoin l ≠ [] := by
  cases l with
  | nil => exact absurd rfl hne
  | cons w ws => exact camelJoin_ne_nil (h w (by simp))

theorem m2ccBooleanBranch_ne_nil (fw : List Char) (wrest : List (List Char))
    (h : fw ≠ []) : m2ccBooleanBranch fw wrest ≠ [] := by
  simp only [m2ccBooleanBranch]
  split
  · exact h
  · exact fun hc => h (List.append_eq_nil.mp hc).1

theorem m2ccTimeBranch_ne_nil (words : List (List Char)) (lastWord : List Char)
    (helem : ∀ w ∈ words, w ≠ []) (hl : lastWord ≠ []) :
    m2ccTimeBranch words lastWord ≠ [] := by
  have hsub : ∀ (k : Nat), ∀ w ∈ (words.dropLast).take k, w ≠ [] :=
    fun k w hw2 =>
      helem w ((List.dropLast_sublist words).subset (List.take_subset _ _ hw2))
  have hX : ∀ k : Nat, ¬((words.dropLast).take k).isEmpty = true →
      camelJoin ((words.dropLast).take k) ≠ [] :=
    fun k hk =>
      camelJoin_ne_nil_of _ (isEmpty_false_ne_nil (by simpa using hk)) (hsub k)
  simp only [m2ccTimeBranch]
  split
  · split
    · -- maxPre = 3
      split
      · exact hl
      · rename_i hpre
        split
        · exact fun hc => hX _ hpre ((List.append_eq_nil.mp hc).1)
        split
        · exact fun hc => hX _ hpre ((List.append_eq_nil.mp hc).1)
        split
        · exact fun hc => hX _ hpre ((List.append_eq_nil.mp hc).1)
        · exact hX _ hpre
    · -- maxPre = 2
      split
      · exact hl
      · rename_i hpre
        split
        · exact fun hc => hX _ hpre ((List.append_eq_nil.mp hc).1)
        split
        · exact fun hc => hX _ hpre ((List.append_eq_nil.mp hc).1)
        split
        · exact fun hc => hX _ hpre ((List.append_eq_nil.mp hc).1)
        · exact hX _ hpre
  · exact hl

theorem m2ccIdEntityBranch_ne_nil (w0 : List Char) (wrest : List (List Char))
    (helem : ∀ w ∈ w0 :: wrest, w ≠ []) :
    m2ccIdEntityBranch (w0 :: wrest) ≠ [] := by
  have hw0 : w0 ≠ [] := helem w0 (by simp)
  simp only [m2ccIdEntityBranch]
  split
  · exact m2ccDefault_ne_nil w0 wrest hw0
  · rename_i hmean
    have hsub : ∀ w ∈ ((w0 :: wrest).filter
        (fun w => pyLowerL w != "id".data
          && pyLowerL w != "entity".data)).take 3, w ≠ [] :=
      fun w hw2 =>
        helem w (List.mem_of_mem_filter (List.take_subset _ _ hw2))
    have hne : ((w0 :: wrest).filter
        (fun w => pyLowerL w != "id".data
          && pyLowerL w != "entity".data)).take 3 ≠ [] := by
      intro hc
      rw [List.take_eq_nil_iff] at hc
      rcases hc with hc | hc
      · exact absurd hc (by omega)
      · rw [hc] at hmean
        simp at hmean
    have hcj := camelJoin_ne_nil_of _ hne hsub
    split
    · split
      · exact fun hc => hcj (List.append_eq_nil.mp hc).1
      split
      · exact hcj
      · decide
    · split
      · exact fun hc => hcj (List.append_eq_nil.mp hc).1
      split
      · exact hcj
      · decide

theorem m2ccFromWords_ne_nil (w0 : List Char) (wrest : List (List Char))
    (helem : ∀ w ∈ w0 :: wrest, w ≠ []) : m2ccFromWords w0 wrest ≠ [] := by
  have hw0 : w0 ≠ [] := helem w0 (by simp)
  have hlast : pyLowerL ((w0 :: wrest).getLastD []) ≠ [] :=
    pyLowerL_ne_nil (helem _ (getLastD_mem_of_ne_nil _ _ (by simp)))
  simp only [m2ccFromWords]
  split
  · exact m2ccBooleanBranch_ne_nil _ _ (pyLowerL_ne_nil hw0)
  split
  · exact m2ccTimeBranch_ne_nil _ _ helem hlast
  split
  · exact m2ccIdEntityBranch_ne_nil w0 wrest helem
  · exact m2ccDefault_ne_nil w0 wrest hw0

theorem meaningToCamelCaseL_ne_nil (cs : List Char) :
    meaningToCamelCaseL cs ≠ [] := by
  unfold meaningToCamelCaseL
  split
  · decide
  split
  · decide
  split
  · decide
  rename_i w0 wrest heq
  apply m2ccFromWords_ne_nil w0 wrest
  intro w hw
  rw [← heq] at hw
  exact wordsOf_ne_nil (List.mem_filter.mp hw).1

/-- C10: the pattern-based `meaning_to_camel_case` is total and always
returns a non-empty identifier: in particular the empty meaning, a
meaning with no alphabetic word, and a meaning of only filler words all
yield the placeholder `"field"`. -/
theorem meaning_to_camel_case_total_nonempty :
    (∀ s : String, meaning_to_camel_case s ≠ "") ∧
    meaning_to_camel_case "" = "field" ∧
    meaning_to_camel_case "(123)" = "field" ∧
    meaning_to_camel_case "of the" = "field" := by
  refine ⟨fun s => ?_, by decide, by decide, by decide⟩
  simp only [meaning_to_camel_case]
  intro hc
  exact meaningToCamelCaseL_ne_nil s.data (congrArg String.data hc)

/-! ## C8: cleanup idempotence analysis -/

/-- Plain text: alphanumeric characters and plain spaces.  None of the
cleanup patterns can match inside such text. -/
def goodChar (c : Char) : Bool := c.isAlphanum || c == ' '

theorem beq_false_of_good {t c : Char} (ht : goodChar t = false)
    (hc : goodChar c = true) : (t == c) = false := by
  rw [beq_eq_false_iff_ne]
  intro e
  subst e
  rw [hc] at ht
  cases ht

theorem all_cons_parts {p : Char → Bool} {c : Char} {cs : List Char}
    (h : (c :: cs).all p = true) : p c = true ∧ cs.all p = true := by
  rw [List.all_cons, Bool.and_eq_true] at h
  exact h

theorem scanSubF_id_of_none (f : List Char → Option (List Char × List Char))
    (hf : ∀ ds : List Char, ds.all goodChar = true → f ds = none) :
    ∀ (fuel : Nat) (cs : List Char), cs.all goodChar = true →
      scanSubF f fuel cs = cs := by
  intro fuel
  induction fuel with
  | zero => intro cs _; rfl
  | succ n ih =>
    intro cs hcs
    cases cs with
    | nil => rfl
    | cons c cs2 =>
      simp only [scanSubF, hf _ hcs]
      rw [ih cs2 (all_cons_parts hcs).2]

theorem runSub_id_of_none (f : List Char → Option (List Char × List Char))
    (hf : ∀ ds : List Char, ds.all goodChar = true → f ds = none)
    (cs : List Char) (hcs : cs.all goodChar = true) : runSub f cs = cs :=
  scanSubF_id_of_none f hf cs.length cs hcs

theorem litStarts_lt_false {ls cs : List Char} {c : Char}
    (hc : goodChar c = true) (ht : goodChar '<' = false) :
    litStarts ('<' :: ls) (c :: cs) = false := by
  simp [litStarts, beq_false_of_good ht hc]

theorem codeTagMatch_none {ds : List Char} (h : ds.all goodChar = true) :
    codeTagMatch ds = none := by
  unfold codeTagMatch
  cases ds with
  | nil => simp [litStarts]
  | cons c cs =>
    have hc := (all_cons_parts h).1
    have : litStarts "<code".data (c :: cs) = false := by
      show litStarts ('<' :: "code".data) (c :: cs) = false
      exact litStarts_lt_false hc (by decide)
    simp [this]

theorem htmlTagMatch_none {ds : List Char} (h : ds.all goodChar = true) :
    htmlTagMatch ds = none := by
  unfold htmlTagMatch
  split
  · rename_i rest
    exact absurd (all_cons_parts h).1 (by decide)
  · rfl

theorem linkMatch_starts_false {ds : List Char} (h : ds.all goodChar = true) :
    litStarts "[[".data ds = false := by
  cases ds with
  | nil => rfl
  | cons c cs =>
    have hc := (all_cons_parts h).1
    show litStarts ('[' :: "[".data) (c :: cs) = false
    simp [litStarts, beq_false_of_good (t := '[') (by decide) hc]

theorem pipedLinkMatch_none {ds : List Char} (h : ds.all goodChar = true) :
    pipedLinkMatch ds = none := by
  unfold pipedLinkMatch
  simp [linkMatch_starts_false h]

theorem bareLinkMatch_none {ds : List Char} (h : ds.all goodChar = true) :
    bareLinkMatch ds = none := by
  unfold bareLinkMatch
  simp [linkMatch_starts_false h]

theorem tmplStarts_false {ds : List Char} (h : ds.all goodChar = true) :
    litStarts "\x7b\x7b".data ds = false := by
  cases ds with
  | nil => rfl
  | cons c cs =>
    have hc := (all_cons_parts h).1
    show litStarts ('\x7b' :: "\x7b".data) (c :: cs) = false
    simp [litStarts, beq_false_of_good (t := '\x7b') (by decide) hc]

theorem tmplExtractMatch_none {kws : List (List Char)} {b : Bool}
    {ds : List Char} (h : ds.all goodChar = true) :
    tmplExtractMatch kws b ds = none := by
  unfold tmplExtractMatch
  simp [tmplStarts_false h]

theorem anyTmplMatch_none {ds : List Char} (h : ds.all goodChar = true) :
    anyTmplMatch ds = none := by
  unfold anyTmplMatch
  simp [tmplStarts_false h]


theorem unquoteHead_subset (l : List Char) : ∀ x ∈ unquoteHead l, x ∈ l := by
  intro x hx
  unfold unquoteHead at hx
  revert hx
  split
  · exact fun hx => List.mem_cons_of_mem _ hx
  · exact fun hx => hx

theorem attrBarTail_id {cs rest3 : List Char} (h : ¬ '|' ∈ cs)
    (hsub : ∀ x ∈ rest3, x ∈ cs) : attrBarTail cs rest3 = cs := by
  unfold attrBarTail
  split
  · rename_i r
    exact absurd (hsub '|' (List.mem_cons_self _ _)) h
  · rfl

theorem attrDigitsTail_id {cs rest1 : List Char} (h : ¬ '|' ∈ cs)
    (hsub : ∀ x ∈ rest1, x ∈ cs) : attrDigitsTail cs rest1 = cs := by
  unfold attrDigitsTail
  split
  · rfl
  · apply attrBarTail_id h
    intro x hx
    exact hsub x (List.drop_subset _ _ (unquoteHead_subset _ x hx))

theorem stripRowColAttrL_id {cs : List Char} (h : ¬ '|' ∈ cs) :
    stripRowColAttrL cs = cs := by
  unfold stripRowColAttrL
  split
  · apply attrDigitsTail_id h
    intro x hx
    exact List.drop_subset _ _ (unquoteHead_subset _ x hx)
  · rfl

theorem styleBodyTail_id {cs rest2 : List Char} (h : ¬ '"' ∈ cs)
    (hsub : ∀ x ∈ rest2, x ∈ cs) : styleBodyTail cs rest2 = cs := by
  unfold styleBodyTail
  split
  · rename_i r
    exact absurd (hsub '"' (List.mem_cons_self _ _)) h
  · rfl

theorem stripStyleAttrL_id {cs : List Char} (h : ¬ '"' ∈ cs) :
    stripStyleAttrL cs = cs := by
  unfold stripStyleAttrL
  split
  · apply styleBodyTail_id h
    intro x hx
    exact List.drop_subset _ _ (List.drop_subset _ _ hx)
  · rfl

theorem not_mem_of_all_good {cs : List Char} (hcs : cs.all goodChar = true)
    {t : Char} (ht : goodChar t = false) : ¬ t ∈ cs := by
  intro hmem
  have := List.all_eq_true.mp hcs t hmem
  rw [ht] at this
  cases this

/-! Whitespace-structure facts for `normalize_whitespace` idempotence. -/

/-- The head, if any, is not whitespace. -/
def headNotWs : List Char → Bool
  | [] => true
  | c :: _ => !isWsChar c

/-- All whitespace characters are plain spaces. -/
def WsSp (l : List Char) : Prop := ∀ x ∈ l, isWsChar x = true → x = ' '

/-- No two adjacent whitespace characters. -/
def NoWsRun (l : List Char) : Prop :=
  List.Chain' (fun a b => ¬(isWsChar a = true ∧ isWsChar b = true)) l

theorem collapseWsAux_false_cons_ws {c : Char} {cs : List Char}
    (h : isWsChar c = true) :
    collapseWsAux false (c :: cs) = ' ' :: collapseWsAux true cs := by
  simp [collapseWsAux, h]

theorem collapseWsAux_true_cons_ws {c : Char} {cs : List Char}
    (h : isWsChar c = true) :
    collapseWsAux true (c :: cs) = collapseWsAux true cs := by
  simp [collapseWsAux, h]

theorem collapseWsAux_cons_not_ws (b : Bool) {c : Char} {cs : List Char}
    (h : isWsChar c = false) :
    collapseWsAux b (c :: cs) = c :: collapseWsAux false cs := by
  cases b <;> simp [collapseWsAux, h]

theorem collapseWsAux_wsSp : ∀ (b : Bool) (cs : List Char),
    WsSp (collapseWsAux b cs) := by
  intro b cs
  induction cs generalizing b with
  | nil => intro x hx; cases hx
  | cons c cs ih =>
    intro x hx hws
    by_cases hc : isWsChar c = true
    · cases b with
      | false =>
        rw [collapseWsAux_false_cons_ws hc] at hx
        rcases List.mem_cons.mp hx with rfl | hx
        · rfl
        · exact ih true x hx hws
      | true =>
        rw [collapseWsAux_true_cons_ws hc] at hx
        exact ih true x hx hws
    · rw [collapseWsAux_cons_not_ws b (by simpa using hc)] at hx
      rcases List.mem_cons.mp hx with rfl | hx
      · exact absurd hws hc
      · exact ih false x hx hws

theorem collapseWsAux_struct : ∀ cs : List Char,
    NoWsRun (collapseWsAux false cs) ∧ NoWsRun (collapseWsAux true cs) ∧
      headNotWs (collapseWsAux true cs) = true := by
  intro cs
  induction cs with
  | nil => exact ⟨List.chain'_nil, List.chain'_nil, rfl⟩
  | cons c cs ih =>
    obtain ⟨ihf, iht, ihh⟩ := ih
    by_cases hc : isWsChar c = true
    · rw [collapseWsAux_false_cons_ws hc, collapseWsAux_true_cons_ws hc]
      refine ⟨?_, iht, ihh⟩
      rw [NoWsRun, List.chain'_cons']
      refine ⟨?_, iht⟩
      intro b hb hcontra
      cases hX : collapseWsAux true cs with
      | nil => rw [hX] at hb; cases hb
      | cons x xs =>
        rw [hX] at hb ihh
        simp only [List.head?_cons, Option.mem_some_iff] at hb
        subst hb
        simp only [headNotWs, Bool.not_eq_true'] at ihh
        rw [ihh] at hcontra
        exact absurd hcontra.2 (by simp)
    · have hc' : isWsChar c = false := by simpa using hc
      rw [collapseWsAux_cons_not_ws false hc', collapseWsAux_cons_not_ws true hc']
      have hchain : NoWsRun (c :: collapseWsAux false cs) := by
        rw [NoWsRun, List.chain'_cons']
        refine ⟨?_, ihf⟩
        intro b _ hcontra
        exact absurd hcontra.1 hc
      exact ⟨hchain, hchain, by simp [headNotWs, hc']⟩

theorem collapseWsAux_id : ∀ cs : List Char, WsSp cs → NoWsRun cs →
    (collapseWsAux false cs = cs ∧
      (headNotWs cs = true → collapseWsAux true cs = cs)) := by
  intro cs
  induction cs with
  | nil => exact fun _ _ => ⟨rfl, fun _ => rfl⟩
  | cons c cs ih =>
    intro hsp hrun
    have hsp2 : WsSp cs := fun x hx => hsp x (List.mem_cons_of_mem _ hx)
    have hrun2 : NoWsRun cs := (List.chain'_cons'.mp hrun).2
    have hrel := (List.chain'_cons'.mp hrun).1
    constructor
    · by_cases hws : isWsChar c = true
      · have hcsp : c = ' ' := hsp c (by simp) hws
        have hhead : headNotWs cs = true := by
          cases cs with
          | nil => rfl
          | cons d ds =>
            have hd := hrel d (by simp)
            simp only [headNotWs, Bool.not_eq_true']
            by_contra hcontra
            simp only [Bool.not_eq_false] at hcontra
            exact hd ⟨hws, hcontra⟩
        rw [collapseWsAux_false_cons_ws hws, (ih hsp2 hrun2).2 hhead, hcsp]
      · rw [collapseWsAux_cons_not_ws false (by simpa using hws),
          (ih hsp2 hrun2).1]
    · intro hh
      simp only [headNotWs, Bool.not_eq_true'] at hh
      rw [collapseWsAux_cons_not_ws true hh, (ih hsp2 hrun2).1]

theorem headNotWs_dropWhile (l : List Char) :
    headNotWs (l.dropWhile isWsChar) = true := by
  induction l with
  | nil => rfl
  | cons c cs ih =>
    simp only [List.dropWhile]
    split
    · exact ih
    · rename_i hc
      simp [headNotWs, hc]

theorem dropWhile_id_of_headNotWs {l : List Char}
    (h : headNotWs l = true) : l.dropWhile isWsChar = l := by
  cases l with
  | nil => rfl
  | cons c cs =>
    simp only [headNotWs, Bool.not_eq_true'] at h
    simp [List.dropWhile, h]

theorem headNotWs_reverse_dropWhile (l : List Char)
    (h : headNotWs l.reverse = true) :
    headNotWs (l.dropWhile isWsChar).reverse = true := by
  induction l with
  | nil => exact h
  | cons c cs ih =>
    simp only [List.dropWhile]
    split
    · apply ih
      cases hrev : cs.reverse with
      | nil =>
        have : cs = [] := by simpa using congrArg List.reverse hrev
        subst this
        rfl
      | cons x xs =>
        have hrw : (c :: cs).reverse = x :: (xs ++ [c]) := by
          simp [hrev]
        rw [hrw] at h
        simpa [headNotWs] using h
    · exact h

theorem pyStripL_props (x : List Char) :
    headNotWs (pyStripL x) = true ∧ headNotWs (pyStripL x).reverse = true := by
  unfold pyStripL
  constructor
  · apply headNotWs_reverse_dropWhile
    simp only [List.reverse_reverse]
    exact headNotWs_dropWhile x
  · rw [List.reverse_reverse]
    exact headNotWs_dropWhile _

theorem pyStripL_id {y : List Char} (h1 : headNotWs y = true)
    (h2 : headNotWs y.reverse = true) : pyStripL y = y := by
  unfold pyStripL
  rw [dropWhile_id_of_headNotWs h1, dropWhile_id_of_headNotWs h2,
    List.reverse_reverse]

theorem wsSp_pyStripL {x : List Char} (h : WsSp x) : WsSp (pyStripL x) := by
  intro c hc
  apply h
  unfold pyStripL at hc
  rw [List.mem_reverse] at hc
  have := List.dropWhile_sublist (l := (x.dropWhile isWsChar).reverse)
    (p := isWsChar)
  have hc2 := this.subset hc
  rw [List.mem_reverse] at hc2
  exact (List.dropWhile_sublist (l := x) (p := isWsChar)).subset hc2

theorem noWsRun_pyStripL {x : List Char} (h : NoWsRun x) :
    NoWsRun (pyStripL x) := by
  have hsymm : ∀ (l : List Char), NoWsRun l → NoWsRun l.reverse := by
    intro l hl
    rw [NoWsRun, List.chain'_reverse]
    exact hl.imp (fun a b hab => fun hc => hab ⟨hc.2, hc.1⟩)
  have hdrop : ∀ (l : List Char), NoWsRun l →
      NoWsRun (l.dropWhile isWsChar) :=
    fun l hl => hl.suffix (List.dropWhile_suffix _)
  exact hsymm _ (hdrop _ (hsymm _ (hdrop _ h)))

theorem normalizeWsL_idem (z : List Char) :
    normalizeWsL (normalizeWsL z) = normalizeWsL z := by
  have hsp : WsSp (normalizeWsL z) :=
    wsSp_pyStripL (collapseWsAux_wsSp false z)
  have hrun : NoWsRun (normalizeWsL z) :=
    noWsRun_pyStripL (collapseWsAux_struct z).1
  have hprops := pyStripL_props (collapseWsAux false z)
  show pyStripL (collapseWsAux false (normalizeWsL z)) = normalizeWsL z
  rw [(collapseWsAux_id _ hsp hrun).1]
  exact pyStripL_id hprops.1 hprops.2

/-- On plain (alphanumeric-and-space) text every markup pass is the
identity and the cleanup composite reduces to whitespace normalization. -/
theorem cleanupCellL_eq_normalize_of_good {cs : List Char}
    (h : cs.all goodChar = true) : cleanupCellL cs = normalizeWsL cs := by
  unfold cleanupCellL stripCodeTagsL stripWikilinksL stripTemplatesL
    stripHtmlTagsL
  rw [runSub_id_of_none _ (fun _ hds => codeTagMatch_none hds) _ h,
    runSub_id_of_none _ (fun _ hds => pipedLinkMatch_none hds) _ h,
    runSub_id_of_none _ (fun _ hds => bareLinkMatch_none hds) _ h,
    runSub_id_of_none _ (fun _ hds => tmplExtractMatch_none hds) _ h,
    runSub_id_of_none _ (fun _ hds => tmplExtractMatch_none hds) _ h,
    runSub_id_of_none _ (fun _ hds => tmplExtractMatch_none hds) _ h,
    runSub_id_of_none _ (fun _ hds => anyTmplMatch_none hds) _ h,
    stripRowColAttrL_id (not_mem_of_all_good h (by decide)),
    stripStyleAttrL_id (not_mem_of_all_good h (by decide)),
    runSub_id_of_none _ (fun _ hds => htmlTagMatch_none hds) _ h]

/-- C8 (amended): the cell-cleanup composite is a total pure function and
is idempotent on every input whose cleaned form is plain
alphanumeric-and-space text; full idempotence fails (see the
counterexample: deleting a template can splice together a new wiki
link). -/
theorem cleanup_cell_text_data (y : String) :
    (cleanup_cell_text y).data = cleanupCellL y.data := by
  have h1 : cleanup_cell_text y = String.mk (cleanupCellL y.data) := rfl
  rw [h1]

theorem cleanupCellL_unfold (cs : List Char) :
    cleanupCellL cs = normalizeWsL (stripHtmlTagsL (stripStyleAttrL
      (stripRowColAttrL (stripTemplatesL (stripWikilinksL
        (stripCodeTagsL cs)))))) := rfl

theorem cleanup_cell_text_idempotent_on_plain (x : String)
    (h : (cleanup_cell_text x).data.all goodChar = true) :
    cleanup_cell_text (cleanup_cell_text x) = cleanup_cell_text x := by
  have hfix : cleanupCellL (cleanup_cell_text x).data
      = (cleanup_cell_text x).data := by
    rw [cleanupCellL_eq_normalize_of_good h, cleanup_cell_text_data x,
      cleanupCellL_unfold]
    exact normalizeWsL_idem _
  have hmk : cleanup_cell_text (cleanup_cell_text x)
      = String.mk (cleanupCellL (cleanup_cell_text x).data) := rfl
  rw [hmk, hfix]

set_option maxHeartbeats 4000000 in
/-- C8 counterexample: `cleanup` is not idempotent.  On
`[\x7b\x7bx\x7d\x7d[a|b]]` the template pass deletes `\x7b\x7bx\x7d\x7d`,
splicing the two halves into the wiki link `[[a|b]]`, which only a second
pass resolves to `b`. -/
theorem cleanup_cell_text_not_idempotent :
    cleanup_cell_text "[\x7b\x7bx\x7d\x7d[a|b]]" = "[[a|b]]" ∧
    cleanup_cell_text (cleanup_cell_text "[\x7b\x7bx\x7d\x7d[a|b]]") = "b" ∧
    cleanup_cell_text (cleanup_cell_text "[\x7b\x7bx\x7d\x7d[a|b]]") ≠
      cleanup_cell_text "[\x7b\x7bx\x7d\x7d[a|b]]" := by
  refine ⟨by decide, by decide, by decide⟩

set_option maxHeartbeats 4000000 in
/-- Witness for the amended C8 theorem at the plain input `"ab c"`. -/
theorem cleanup_cell_text_idempotent_on_plain_witness :
    cleanup_cell_text (cleanup_cell_text "ab c") = cleanup_cell_text "ab c" :=
  cleanup_cell_text_idempotent_on_plain "ab c" (by decide)

/-! ## C7: the entity-table row contract -/

theorem bne_empty_iff (s : String) : (s != "") = true ↔ s.data ≠ [] := by
  constructor
  · intro h hc
    have : s = "" := by
      cases s with
      | mk d => simpa using congrArg String.mk hc
    subst this
    simp at h
  · intro h
    rw [bne_iff_ne]
    intro hc
    subst hc
    exact h rfl

theorem pyStripL_nil : pyStripL [] = [] := rfl

/-- C7: `parse_entities_table` builds one map update per table row with
at least 5 cells, keyed by the code-tag-stripped fifth cell; rows with
fewer than 5 cells contribute nothing; the entity's `type_index` is an
integer exactly when the trimmed first cell is a non-empty string of
decimal digits, and otherwise keeps the raw first cell as a string. -/
theorem parse_entities_table_row_contract :
    (∀ (acc : List (String × Entity)) (rows : List (List String)),
      entityRowsFold acc rows
        = entityRowsFold acc (rows.filter (fun r => decide (5 ≤ r.length)))) ∧
    (∀ (acc : List (String × Entity)) (r : List String), 5 ≤ r.length →
      entityRowsFold acc [r]
        = updAssoc acc (removeCodeMarks (r.getD 4 "")) (entityFromRow r).2) ∧
    (∀ (acc : List (String × Entity)) (r : List String), r.length < 5 →
      entityRowsFold acc [r] = acc) ∧
    (∀ r : List String,
      (∃ n : Nat, (entityFromRow r).2.type_index = Sum.inl n) ↔
        (pyStripL (r.getD 0 "").data ≠ [] ∧
          (pyStripL (r.getD 0 "").data).all isDigitChar = true)) := by
  refine ⟨?_, ?_, ?_, ?_⟩
  · intro acc rows
    induction rows generalizing acc with
    | nil => rfl
    | cons r rows ih =>
      by_cases h5 : 5 ≤ r.length
      · simp only [entityRowsFold, List.foldl_cons]
        rw [List.filter_cons_of_pos (by simpa using h5)]
        simp only [List.foldl_cons]
        exact ih _
      · simp only [entityRowsFold, List.foldl_cons, if_neg h5]
        rw [List.filter_cons_of_neg (by simpa using h5)]
        exact ih _
  · intro acc r h5
    simp [entityRowsFold, entityFromRow, if_pos h5]
  · intro acc r h5
    simp [entityRowsFold, if_neg (Nat.not_le.mpr h5)]
  · intro r
    unfold entityFromRow
    constructor
    · intro ⟨n, hn⟩
      simp only at hn
      split at hn
      · rename_i hcond
        rw [Bool.and_eq_true] at hcond
        have h1 := (bne_empty_iff _).mp hcond.1
        have h2 := hcond.2
        unfold pyIsDigitL at h2
        rw [Bool.and_eq_true] at h2
        exact ⟨isEmpty_false_ne_nil (by simpa using h2.1), h2.2⟩
      · cases hn
    · intro ⟨h1, h2⟩
      have hne : (r.getD 0 "" != "") = true := by
        rw [bne_empty_iff]
        intro hc
        apply h1
        rw [hc]
        exact pyStripL_nil
      have hdig : pyIsDigitL (pyStripL (r.getD 0 "").data) = true := by
        unfold pyIsDigitL
        rw [Bool.and_eq_true]
        refine ⟨?_, h2⟩
        simp only [Bool.not_eq_true']
        rw [List.isEmpty_eq_false_iff_exists_mem]
        cases hx : pyStripL (r.getD 0 "").data with
        | nil => exact absurd hx h1
        | cons c cs2 => exact ⟨c, by simp⟩
      refine ⟨digitsToNat (pyStripL (r.getD 0 "").data), ?_⟩
      simp [hne, hdig]
      exact ⟨by simpa using bne_iff_ne.mp hne, by simpa using hdig⟩

/-- Witness for C7 at a concrete 5-cell row and a concrete 4-cell row. -/
theorem parse_entities_table_row_contract_witness :
    (entityRowsFold [] [["5", "Zombie", "0.6", "1.95",
        "<code>minecraft:zombie</code>"]]
      = [("minecraft:zombie",
          ⟨Sum.inl 5, "Zombie", "0.6", "1.95"⟩)]) ∧
    entityRowsFold [] [["5", "Zombie", "0.6", "1.95"]] = [] := by
  constructor
  · rw [parse_entities_table_row_contract.2.1 [] _ (by decide)]
    decide
  · exact parse_entities_table_row_contract.2.2.1 [] _ (by decide)

/-! ## C6: `parse_wikitable` termination behaviour -/

theorem getD_drop_shift (l : List String) (n k : Nat) :
    (l.drop n).getD k "" = l.getD (n + k) "" := by
  rw [List.getD_eq_getElem?_getD, List.getD_eq_getElem?_getD,
    List.getElem?_drop]

theorem pwAux_fst_close : ∀ (ls : List String) (t : Nat) (cur hs : List String)
    (rs : List (List String)),
    t < ls.length →
    (∀ k, k < t → isEndLine (pyStripL (ls.getD k "").data) = false) →
    isEndLine (pyStripL (ls.getD t "").data) = true →
    (pwAux ls cur hs rs).1 = t + 1 := by
  intro ls
  induction ls with
  | nil =>
    intro t cur hs rs ht
    exact absurd ht (by simp)
  | cons l ls2 ih =>
    intro t cur hs rs ht hpre hend
    cases t with
    | zero =>
      have h0 : isEndLine (pyStripL l.data) = true := by simpa using hend
      simp [pwAux, h0]
    | succ t2 =>
      have h0 : isEndLine (pyStripL l.data) = false := by
        simpa using hpre 0 (by omega)
      have hend2 : isEndLine (pyStripL (ls2.getD t2 "").data) = true := by
        simpa using hend
      have hpre2 : ∀ k, k < t2 →
          isEndLine (pyStripL (ls2.getD k "").data) = false := fun k hk => by
        simpa using hpre (k + 1) (by omega)
      have hlen : t2 < ls2.length := by simpa using ht
      simp only [pwAux, h0, Bool.false_eq_true, if_false]
      repeat' split
      all_goals exact congrArg (· + 1) (ih t2 _ _ _ hlen hpre2 hend2)

theorem pwAux_fst_eof : ∀ (ls : List String) (cur hs : List String)
    (rs : List (List String)),
    (∀ k, k < ls.length → isEndLine (pyStripL (ls.getD k "").data) = false) →
    (pwAux ls cur hs rs).1 = ls.length + 1 := by
  intro ls
  induction ls with
  | nil => intro cur hs rs _; rfl
  | cons l ls2 ih =>
    intro cur hs rs hpre
    have h0 : isEndLine (pyStripL l.data) = false := by
      simpa using hpre 0 (by simp)
    have hpre2 : ∀ k, k < ls2.length →
        isEndLine (pyStripL (ls2.getD k "").data) = false := fun k hk => by
      simpa using hpre (k + 1) (by simpa using hk)
    simp only [pwAux, h0, Bool.false_eq_true, if_false]
    repeat' split
    all_goals
      exact Eq.trans (congrArg (· + 1) (ih _ _ _ hpre2)) (by simp)

theorem pwAux_flush : ∀ (seg : List String) (cur hs : List String)
    (rs : List (List String)),
    (pwAux (seg ++ ["|\x7d"]) cur hs rs).2.2
      = (pwAux (seg ++ ["|-", "|\x7d"]) cur hs rs).2.2 := by
  intro seg
  induction seg with
  | nil =>
    intro cur hs rs
    have hend : isEndLine (pyStripL "|\x7d".data) = true := by decide
    have hrs : isRowSepLine (pyStripL "|-".data) = true := by decide
    have hne : isEndLine (pyStripL "|-".data) = false := by decide
    simp only [List.nil_append, pwAux, hend, hrs, hne, Bool.false_eq_true,
      if_false, if_true]
    split <;> rfl
  | cons l seg2 ih =>
    intro cur hs rs
    simp only [List.cons_append, pwAux]
    repeat' split
    all_goals first
      | rfl
      | exact ih _ _ _

/-- C6 (amended): `parse_wikitable` never fails.  On reaching the first
close-table marker it stops and returns the index of the line after the
marker, and the close marker flushes a pending row exactly as a row
separator would; with no close marker it terminates fail-soft at
end-of-input (returning index `length + 1`) — but a pending row not yet
flushed by a separator or close marker is discarded, not returned. -/
theorem parse_wikitable_close_flush_eof :
    (∀ (lines : List String) (start j : Nat),
      start < j → j < lines.length →
      (∀ k, start < k → k < j →
        isEndLine (pyStripL (lines.getD k "").data) = false) →
      isEndLine (pyStripL (lines.getD j "").data) = true →
      (parse_wikitable lines start).1 = j + 1) ∧
    (∀ (lines : List String) (start : Nat),
      start < lines.length →
      (∀ k, start < k → k < lines.length →
        isEndLine (pyStripL (lines.getD k "").data) = false) →
      (parse_wikitable lines start).1 = lines.length + 1) ∧
    (∀ (x : String) (seg : List String),
      (parse_wikitable (x :: (seg ++ ["|\x7d"])) 0).2.rows
        = (parse_wikitable (x :: (seg ++ ["|-", "|\x7d"])) 0).2.rows) := by
  refine ⟨?_, ?_, ?_⟩
  · intro lines start j hsj hj hpre hend
    show start + 1 + (pwAux (lines.drop (start + 1)) [] [] []).1 = j + 1
    rw [pwAux_fst_close (lines.drop (start + 1)) (j - (start + 1)) [] [] []]
    · omega
    · rw [List.length_drop]; omega
    · intro k hk
      rw [getD_drop_shift]
      exact hpre _ (by omega) (by omega)
    · rw [getD_drop_shift]
      have heq : start + 1 + (j - (start + 1)) = j := by omega
      rw [heq]
      exact hend
  · intro lines start hs hpre
    show start + 1 + (pwAux (lines.drop (start + 1)) [] [] []).1
        = lines.length + 1
    rw [pwAux_fst_eof]
    · rw [List.length_drop]; omega
    · intro k hk
      rw [getD_drop_shift]
      rw [List.length_drop] at hk
      exact hpre _ (by omega) (by omega)
  · intro x seg
    show (pwAux ((x :: (seg ++ ["|\x7d"])).drop 1) [] [] []).2.2
        = (pwAux ((x :: (seg ++ ["|-", "|\x7d"])).drop 1) [] [] []).2.2
    simp only [List.drop_succ_cons, List.drop_zero]
    exact pwAux_flush seg [] [] []

/-- C6 counterexample: with no close marker, a pending row that was
parsed (the data cell `a`) is discarded at end-of-input — the same table
closed properly does return the row, so the unclosed parse does not
contain "everything parsed up to that point". -/
theorem parse_wikitable_drops_pending_row :
    (parse_wikitable ["\x7b| class=\"wikitable\"", "| a"] 0)
      = (3, ⟨[], []⟩) ∧
    (parse_wikitable ["\x7b| class=\"wikitable\"", "| a", "|\x7d"] 0).2.rows
      = [["a"]] := by
  refine ⟨by decide, by decide⟩

/-- Witness for C6 at a concrete closed table. -/
theorem parse_wikitable_close_flush_eof_witness :
    (parse_wikitable ["\x7b| class=\"wikitable\"", "|-", "| a", "|\x7d", "z"]
      0).1 = 4 :=
  parse_wikitable_close_flush_eof.1 _ 0 3 (by decide) (by decide)
    (by intro k h1 h2; interval_cases k <;> decide) (by decide)

/-! ## C4: bitmask folding -/

theorem updateLastField_append (init : List MetaField) (last : MetaField)
    (g : MetaField → MetaField) :
    updateLastField (init ++ [last]) g = init ++ [g last] := by
  induction init with
  | nil => rfl
  | cons f fs ih =>
    cases hfs : fs ++ [last] with
    | nil => exact absurd hfs (by simp)
    | cons x xs =>
      simp only [List.cons_append, updateLastField, hfs]
      rw [← hfs, ih]

/-- C4 (amended): a two-cell row whose first cell is a bare hex literal,
arriving when a previous regular field exists, is folded into that field:
the parent's `meaning` and `name` entries are deleted outright (the dict
keys are removed — the field ends with no meaning entry, not an empty
one), exactly one `BitFlag` per flag row is appended (mask = cell 1,
meaning = cell 2, name derived from cell 2), and the parent's `index`,
the other fields, and the index counter are unchanged. -/
theorem sectionRowStep_bitmask_fold (st : SectionScan) (c0 c1 : String)
    (init : List MetaField) (last : MetaField)
    (hf : st.fields = init ++ [last]) (hl : st.hasLast = true)
    (hx : isHexLit c0 = true) :
    sectionRowStep st [c0, c1]
      = { st with fields := init ++ [{ last with
            meaning := none, name := none,
            bitmask := last.bitmask ++
              [⟨c0, c1, meaning_to_camel_case c1⟩] }] } := by
  unfold sectionRowStep
  rw [if_pos]
  · rw [hf, updateLastField_append]
    rfl
  · simp [hx, hl]

/-- C4 counterexample: after folding, the parent field's `meaning` is
absent (`none`), not the empty string. -/
theorem bitmask_fold_meaning_removed :
    ((processRows ⟨[], -1, false⟩
        [["0", "Byte", "Flags", "x", "0"], ["0x01", "On fire"]]).fields.map
      MetaField.meaning = [none]) ∧
    (none : Option String) ≠ some "" := by
  refine ⟨by decide, by decide⟩

/-- Witness for C4 at a concrete parent field and flag row. -/
theorem sectionRowStep_bitmask_fold_witness :
    sectionRowStep ⟨[⟨0, "Byte", "0", some "Flags", some "flags", []⟩], 0,
        true⟩ ["0x01", "On fire"]
      = ⟨[⟨0, "Byte", "0", none, none, [⟨"0x01", "On fire", "fire"⟩]⟩], 0,
        true⟩ := by
  rw [sectionRowStep_bitmask_fold _ "0x01" "On fire" []
    ⟨0, "Byte", "0", some "Flags", some "flags", []⟩ rfl rfl (by decide)]
  decide

/-! ## C1: sequential field indices -/

/-- The row-scan invariant: fields built so far carry indices
`base, base+1, ...` and the counter sits one below the next index. -/
def SeqFrom (base : Int) (st : SectionScan) : Prop :=
  (∀ i (h : i < st.fields.length), (st.fields.get ⟨i, h⟩).index = base + i) ∧
  st.counter = base - 1 + st.fields.length

theorem updateLastField_map_index (l : List MetaField)
    (g : MetaField → MetaField) (hg : ∀ f, (g f).index = f.index) :
    (updateLastField l g).map MetaField.index = l.map MetaField.index := by
  induction l with
  | nil => rfl
  | cons f fs ih =>
    cases fs with
    | nil => simp [updateLastField, hg]
    | cons f2 fs2 => simpa [updateLastField] using ih

theorem sectionRowStep_seq (base : Int) (st : SectionScan)
    (cells : List String) (h : SeqFrom base st) :
    SeqFrom base (sectionRowStep st cells) := by
  obtain ⟨hidx, hctr⟩ := h
  unfold sectionRowStep
  split
  · -- bitmask folding: the index sequence is untouched
    have hmap := updateLastField_map_index st.fields
      (foldBitFlag (cells.headD "") (cells.getD 1 "")) (fun f => rfl)
    have hlen : (updateLastField st.fields
        (foldBitFlag (cells.headD "") (cells.getD 1 ""))).length
        = st.fields.length := by
      have := congrArg List.length hmap
      simpa using this
    constructor
    · intro i hi
      have hi' : i < st.fields.length := hlen ▸ hi
      have h1 : ((updateLastField st.fields
          (foldBitFlag (cells.headD "") (cells.getD 1 ""))).map
            MetaField.index).get ⟨i, by simpa [hlen] using hi⟩
          = ((st.fields.map MetaField.index).get ⟨i, by simpa using hi'⟩) := by
        apply List.get_of_eq hmap
      simpa using h1.trans (by simpa using hidx i hi')
    · show st.counter = base - 1 +
        ((updateLastField st.fields
          (foldBitFlag (cells.headD "") (cells.getD 1 ""))).length : Int)
      rw [hlen]
      exact hctr
  · constructor
    · intro i hi
      simp only [List.length_append, List.length_cons, List.length_nil] at hi
      rcases Nat.lt_or_ge i st.fields.length with hlt | hge
      · rw [List.get_append_left]
        · exact hidx i hlt
      · have hieq : i = st.fields.length := by omega
        subst hieq
        rw [List.get_append_right] <;> simp [hctr]
        omega
    · simp [hctr]
      omega

theorem processRows_seq (base : Int) (rows : List (List String)) :
    ∀ st : SectionScan, SeqFrom base st → SeqFrom base (processRows st rows) := by
  induction rows with
  | nil => exact fun st h => h
  | cons r rows ih =>
    intro st h
    exact ih _ (sectionRowStep_seq base st r h)

theorem sectionLinesLoop_seq (lines : List String) (endLine : Nat)
    (base : Int) : ∀ (fuel i : Nat) (st : SectionScan), SeqFrom base st →
    SeqFrom base (sectionLinesLoop lines endLine fuel i st) := by
  intro fuel
  induction fuel with
  | zero => exact fun i st h => h
  | succ n ih =>
    intro i st h
    unfold sectionLinesLoop
    split
    · split
      · exact ih _ _ h
      · split
        · exact ih _ _ (processRows_seq _ _ _ h)
        · exact ih _ _ h
    · exact h

theorem lookup_append_self {v : SectionData} :
    ∀ (l : List (String × SectionData)) (k : String),
    List.lookup k l = none → List.lookup k (l ++ [(k, v)]) = some v := by
  intro l
  induction l with
  | nil => intro k _; simp [List.lookup]
  | cons p l2 ih =>
    intro k hk
    rw [List.cons_append]
    cases p with
    | mk k0 v0 =>
      simp only [List.lookup] at hk ⊢
      cases hbe : (k == k0) with
      | true => rw [hbe] at hk; simp at hk
      | false => rw [hbe] at hk; exact ih k hk

theorem lookup_updAssoc_self {α : Type} (v : α) :
    ∀ (l : List (String × α)) (k : String),
    List.lookup k (updAssoc l k v) = some v := by
  intro l
  induction l with
  | nil => intro k; simp [updAssoc, List.lookup]
  | cons p l2 ih =>
    intro k
    cases p with
    | mk k0 v0 =>
      by_cases heq : k0 = k
      · subst heq
        simp [updAssoc, List.lookup]
      · have hbe : (k == k0) = false :=
          beq_eq_false_iff_ne.mpr (fun e => heq e.symm)
        simp only [updAssoc, if_neg heq, List.lookup, hbe]
        exact ih k

/-- C1: for a section not previously in the result map, every field the
extractor records for it has `index = baseIndex + position`, where
`baseIndex` is `calculate_base_index` at the freshly-initialized map:
regular rows take consecutive indices from the base and bitmask sub-rows
consume none. -/
theorem parse_section_by_name_indices (lines : List String) (name : String)
    (res : List (String × SectionData)) (m : InheritMap) (sec : SectionData)
    (hfresh : List.lookup name res = none)
    (hsec : List.lookup name (parse_section_by_name lines name res m)
      = some sec) :
    ∀ i (h : i < sec.fields.length),
      (sec.fields.get ⟨i, h⟩).index
        = (calculate_base_index name m (setdefaultSec res name) : Int) + i := by
  unfold parse_section_by_name at hsec
  split at hsec
  · rw [hfresh] at hsec; cases hsec
  · rename_i startLine endLine heq
    have hres1 : setdefaultSec res name = res ++ [(name, ⟨none, []⟩)] := by
      unfold setdefaultSec
      rw [if_neg]
      simp [hfresh]
    rw [hres1, lookup_append_self res name hfresh] at hsec
    simp only at hsec
    rw [lookup_updAssoc_self] at hsec
    have hseq := sectionLinesLoop_seq lines endLine
      ((calculate_base_index name m (res ++ [(name, ⟨none, []⟩)]) : Int))
      (endLine + 1) (startLine + 1)
      ⟨[], (calculate_base_index name m (res ++ [(name, ⟨none, []⟩)]) : Int)
        - 1, false⟩
      (by constructor
          · intro i hi; cases hi
          · simp)
    obtain ⟨hidx, _⟩ := hseq
    cases hsec
    rw [hres1]
    intro i h
    simpa using hidx i (by simpa using h)

set_option maxHeartbeats 4000000 in
/-- Witness for C1 on a concrete one-section document: the second field
(after a bitmask sub-row that consumes no index) has index
`baseIndex + 1`. -/
theorem parse_section_by_name_indices_witness :
    (((⟨none,
      [⟨0, "Byte", "0", none, none, [⟨"0x01", "On fire", "fire"⟩]⟩,
       ⟨1, "VarInt", "300", some "Air", some "air", []⟩]⟩ :
        SectionData).fields.get ⟨1, by decide⟩).index)
      = (calculate_base_index "Test" [] (setdefaultSec [] "Test") : Int) + 1 :=
  parse_section_by_name_indices
    ["=== Test ===", "\x7b| class=\"wikitable\"", "|-", "| 0", "| Byte",
     "| Health", "| x", "| 0", "|-", "| 0x01", "| On fire", "|-", "| 1",
     "| VarInt", "| Air", "| y", "| 300", "|\x7d"]
    "Test" [] [] _ (by decide) (by decide) 1 (by decide)

/-! ## C2: the inheritance base index -/

theorem length_filter_mono {α : Type} (l : List α) (q p : α → Bool)
    (h : ∀ x, q x = true → p x = true) :
    (l.filter q).length ≤ (l.filter p).length := by
  induction l with
  | nil => simp
  | cons x l2 ih =>
    by_cases hq : q x = true
    · rw [List.filter_cons_of_pos hq, List.filter_cons_of_pos (h x hq)]
      simpa using ih
    · rw [List.filter_cons_of_neg (by simpa using hq)]
      by_cases hp : p x = true
      · rw [List.filter_cons_of_pos hp]
        exact Nat.le_trans ih (by simp)
      · rw [List.filter_cons_of_neg (by simpa using hp)]
        exact ih

theorem length_filter_lt {α : Type} [DecidableEq α] (l : List α) (a : α)
    (q p : α → Bool) (ha : a ∈ l) (hqa : q a = false) (hpa : p a = true)
    (h : ∀ x, q x = true → p x = true) :
    (l.filter q).length < (l.filter p).length := by
  induction l with
  | nil => cases ha
  | cons x l2 ih =>
    by_cases hxa : x = a
    · subst hxa
      rw [List.filter_cons_of_neg (by simp [hqa]), List.filter_cons_of_pos hpa]
      exact Nat.lt_succ_of_le (length_filter_mono l2 q p h)
    · have ha2 : a ∈ l2 := by
        rcases List.mem_cons.mp ha with h1 | h1
        · exact absurd h1.symm hxa
        · exact h1
      by_cases hq : q x = true
      · rw [List.filter_cons_of_pos hq, List.filter_cons_of_pos (h x hq)]
        simpa using ih ha2
      · rw [List.filter_cons_of_neg (by simpa using hq)]
        by_cases hp : p x = true
        · rw [List.filter_cons_of_pos hp]
          exact Nat.lt_succ_of_lt (ih ha2)
        · rw [List.filter_cons_of_neg (by simpa using hp)]
          exact ih ha2

theorem mem_dedupAux {α : Type} [BEq α] [LawfulBEq α] :
    ∀ (l seen : List α) (y : α), y ∈ dedupAux seen l ↔ (y ∈ l ∧ ¬ y ∈ seen) := by
  intro l
  induction l with
  | nil => simp [dedupAux]
  | cons x l2 ih =>
    intro seen y
    simp only [dedupAux]
    split
    · rename_i hx
      rw [ih]
      constructor
      · exact fun ⟨h1, h2⟩ => ⟨List.mem_cons_of_mem _ h1, h2⟩
      · rintro ⟨h1, h2⟩
        rcases List.mem_cons.mp h1 with rfl | h1
        · exact absurd (by simpa using hx) h2
        · exact ⟨h1, h2⟩
    · rename_i hx
      constructor
      · intro hy
        rcases List.mem_cons.mp hy with rfl | hy
        · exact ⟨by simp, by simpa using hx⟩
        · rw [ih] at hy
          refine ⟨List.mem_cons_of_mem _ hy.1, ?_⟩
          intro hc
          exact hy.2 (List.mem_cons_of_mem _ hc)
      · rintro ⟨h1, h2⟩
        rcases List.mem_cons.mp h1 with rfl | h1
        · exact List.mem_cons_self _ _
        · by_cases hyx : y = x
          · subst hyx
            exact List.mem_cons_self _ _
          · apply List.mem_cons_of_mem
            rw [ih]
            exact ⟨h1, by simp [h2, hyx]⟩

theorem mem_dedupFirst {α : Type} [BEq α] [LawfulBEq α] {l : List α} {y : α} :
    y ∈ dedupFirst l ↔ y ∈ l := by
  rw [dedupFirst, mem_dedupAux]
  simp

theorem dedupFirst_length_le {α : Type} [BEq α] :
    ∀ (l : List α), (dedupFirst l).length ≤ l.length := by
  have key : ∀ (l seen : List α), (dedupAux seen l).length ≤ l.length := by
    intro l
    induction l with
    | nil => simp [dedupAux]
    | cons x l2 ih =>
      intro seen
      simp only [dedupAux]
      split
      · exact Nat.le_trans (ih seen) (by simp)
      · simpa using ih (x :: seen)
  exact fun l => key l []

theorem getParent_eq_none_of_not_mem {m : InheritMap} {c : String}
    (h : ¬ c ∈ (m : List (String × Option String)).map Prod.fst) :
    getParent m c = none := by
  unfold getParent
  induction (m : List (String × Option String)) with
  | nil => rfl
  | cons p l2 ih =>
    simp only [List.lookup]
    cases hbe : (c == p.1) with
    | true =>
      exact absurd (by simp [(beq_iff_eq.mp hbe)]) h
    | false =>
      exact ih (fun hc => h (by simp [hc]))

/-- The measure of the chain walk: unvisited distinct keys. -/
def chainMeasure (m : InheritMap) (v : List String) : Nat :=
  ((dedupFirst ((m : List (String × Option String)).map Prod.fst)).filter
    (fun x => !v.contains x)).length

theorem chainFromF_stable (m : InheritMap) : ∀ (fuel : Nat) (v : List String)
    (p : Option String), chainMeasure m v < fuel →
    chainFromF m (fuel + 1) v p = chainFromF m fuel v p := by
  intro fuel
  induction fuel with
  | zero => intro v p h; cases h
  | succ f ih =>
    intro v p h
    cases p with
    | none => rfl
    | some c =>
      show (if c == "" || v.contains c then [] else
        c :: chainFromF m (f + 1) (c :: v) (getParent m c))
        = (if c == "" || v.contains c then [] else
          c :: chainFromF m f (c :: v) (getParent m c))
      by_cases hv : (c == "" || v.contains c) = true
      · rw [if_pos hv, if_pos hv]
      · rw [if_neg hv, if_neg hv]
        have hor : (c == "" || v.contains c) = false := by
          simpa using hv
        have hvc : v.contains c = false := (Bool.or_eq_false_iff.mp hor).2
        by_cases hmem : c ∈ (m : List (String × Option String)).map Prod.fst
        · have hdec : chainMeasure m (c :: v) < chainMeasure m v := by
            apply length_filter_lt _ c
            · rw [mem_dedupFirst]
              exact hmem
            · simp
            · simpa using hvc
            · intro x hx
              simp only [Bool.not_eq_true', List.contains_cons] at hx ⊢
              rcases Bool.or_eq_false_iff.mp hx with ⟨_, h2⟩
              exact h2
          rw [ih (c :: v) (getParent m c) (by omega)]
        · rw [getParent_eq_none_of_not_mem hmem]
          cases f <;> rfl

theorem chainFromF_visited_congr (m : InheritMap) (x : String) :
    ∀ (fuel : Nat) (v w : List String) (p : Option String),
    (∀ y, y ∈ w ↔ (y ∈ v ∨ y = x)) →
    ¬ x ∈ chainFromF m fuel v p →
    chainFromF m fuel w p = chainFromF m fuel v p := by
  intro fuel
  induction fuel with
  | zero => intro v w p _ _; rfl
  | succ f ih =>
    intro v w p hw hx
    cases p with
    | none => rfl
    | some c =>
      have hshape : ∀ (u : List String), chainFromF m (f + 1) u (some c)
          = (if c == "" || u.contains c then [] else
            c :: chainFromF m f (c :: u) (getParent m c)) := fun _ => rfl
      rw [hshape v] at hx
      rw [hshape w, hshape v]
      by_cases hce : (c == "") = true
      · have h1 : (c == "" || w.contains c) = true := by rw [hce]; rfl
        have h2 : (c == "" || v.contains c) = true := by rw [hce]; rfl
        rw [if_pos h1, if_pos h2]
      · have hbe : (c == "") = false := by simpa using hce
        rw [hbe] at hx ⊢
        simp only [Bool.false_or] at hx ⊢
        by_cases hv : v.contains c = true
        · have hvm : c ∈ v := by simpa using hv
          have hcw : w.contains c = true := by
            have hmem : c ∈ w := (hw c).mpr (Or.inl hvm)
            simpa using hmem
          rw [if_pos hv, if_pos hcw]
        · rw [if_neg hv] at hx
          have hvm : ¬ c ∈ v := by simpa using hv
          have hxc : ¬ c = x := by
            intro e
            exact hx (e ▸ List.mem_cons_self _ _)
          have hcw : ¬ w.contains c = true := by
            intro hc
            have : c ∈ w := by simpa using hc
            rcases (hw c).mp this with h1 | h1
            · exact hvm h1
            · exact hxc h1
          rw [if_neg hv, if_neg hcw]
          congr 1
          apply ih
          · intro y
            simp only [List.mem_cons]
            rw [hw y]
            tauto
          · intro hc
            exact hx (List.mem_cons_of_mem _ hc)

theorem chainFromF_cons (m : InheritMap) (fuel : Nat) (v : List String)
    (c : String) (hc : ¬ c = "") (hv : ¬ c ∈ v) :
    chainFromF m (fuel + 1) v (some c)
      = c :: chainFromF m fuel (c :: v) (getParent m c) := by
  have hshape : chainFromF m (fuel + 1) v (some c)
      = (if c == "" || v.contains c then [] else
        c :: chainFromF m fuel (c :: v) (getParent m c)) := rfl
  have h1 : (c == "") = false := by simpa using hc
  have h2 : v.contains c = false := by simpa using hv
  rw [hshape, h1, h2]
  rfl

/-- C2: `calculate_base_index` equals the sum, over the visited-set
parent-chain walk (root-first; reversal does not change the sum), of the
already-recorded field counts, with unrecorded ancestors contributing 0;
and if B inherits from a truthy (non-empty) parent name A, A's own chain
never revisits A (no cycle), and A is recorded with k fields, then B's
base index is k plus A's own base index. -/
theorem calculate_base_index_spec :
    (∀ (s : String) (m : InheritMap) (parsed : List (String × SectionData)),
      calculate_base_index s m parsed
        = ((chainFromF m
            (List.length (m : List (String × Option String)) + 1) []
            (getParent m s)).map (recordedFieldCount parsed)).sum) ∧
    (∀ (m : InheritMap) (parsed : List (String × SectionData))
      (B A : String) (dA : SectionData) (k : Nat),
      getParent m B = some A → ¬ A = "" →
      ¬ A ∈ chainFromF m
        (List.length (m : List (String × Option String)) + 1) []
        (getParent m A) →
      List.lookup A parsed = some dA → dA.fields.length = k →
      calculate_base_index B m parsed = k + calculate_base_index A m parsed) := by
  have hspec : ∀ (s : String) (m : InheritMap)
      (parsed : List (String × SectionData)),
      calculate_base_index s m parsed
        = ((chainFromF m
            (List.length (m : List (String × Option String)) + 1) []
            (getParent m s)).map (recordedFieldCount parsed)).sum := by
    intro s m parsed
    unfold calculate_base_index
    rw [List.map_reverse, List.sum_reverse]
  refine ⟨hspec, ?_⟩
  intro m parsed B A dA k hB hAne hnc hA hk
  have hchB : chainFromF m
      (List.length (m : List (String × Option String)) + 1) []
      (getParent m B)
      = A :: chainFromF m (List.length (m : List (String × Option String)))
          [A] (getParent m A) := by
    rw [hB]
    exact chainFromF_cons m _ [] A hAne (by simp)
  have hbridge : chainFromF m
      (List.length (m : List (String × Option String))) [A] (getParent m A)
      = chainFromF m
        (List.length (m : List (String × Option String)) + 1) [A]
        (getParent m A) := by
    by_cases hmem : A ∈ (m : List (String × Option String)).map Prod.fst
    · symm
      apply chainFromF_stable
      calc chainMeasure m [A]
          < (dedupFirst ((m : List (String × Option String)).map
              Prod.fst)).length := by
            unfold chainMeasure
            have := length_filter_lt
              (dedupFirst ((m : List (String × Option String)).map Prod.fst))
              A (fun x => !([A].contains x)) (fun _ => true)
              (mem_dedupFirst.mpr hmem) (by simp) rfl (fun _ _ => rfl)
            simpa using this
        _ ≤ ((m : List (String × Option String)).map Prod.fst).length :=
            dedupFirst_length_le _
        _ = List.length (m : List (String × Option String)) := by simp
    · rw [getParent_eq_none_of_not_mem hmem]
      cases hL : List.length (m : List (String × Option String)) <;> rfl
  have hcongr : chainFromF m
      (List.length (m : List (String × Option String)) + 1) [A]
      (getParent m A)
      = chainFromF m
        (List.length (m : List (String × Option String)) + 1) []
        (getParent m A) := by
    apply chainFromF_visited_congr m A _ [] [A] _ (by simp) hnc
  rw [hspec B, hspec A, hchB, hbridge, hcongr]
  simp only [List.map_cons, List.sum_cons]
  have hfa : recordedFieldCount parsed A = k := by
    unfold recordedFieldCount
    rw [hA]
    exact hk
  rw [hfa]

/-- Witness for C2: Zombie inherits from Entity (2 recorded fields),
Entity from nothing, so Zombie's base index is 2 + 0. -/
theorem calculate_base_index_spec_witness :
    calculate_base_index "Zombie"
      [("Entity", none), ("Zombie", some "Entity")]
      [("Entity", ⟨none,
        [⟨0, "Byte", "0", some "F", some "f", []⟩,
         ⟨1, "VarInt", "300", some "G", some "g", []⟩]⟩)]
      = 2 + calculate_base_index "Entity"
        [("Entity", none), ("Zombie", some "Entity")]
        [("Entity", ⟨none,
          [⟨0, "Byte", "0", some "F", some "f", []⟩,
           ⟨1, "VarInt", "300", some "G", some "g", []⟩]⟩)] :=
  calculate_base_index_spec.2 _ _ "Zombie" "Entity"
    ⟨none, [⟨0, "Byte", "0", some "F", some "f", []⟩,
            ⟨1, "VarInt", "300", some "G", some "g", []⟩]⟩ 2
    (by decide) (by decide) (by decide) (by decide) (by decide)

/-! ## C3 and C5: the topological sort -/

/-- Position of the first occurrence of `x` (length if absent). -/
def idxOf : List String → String → Nat
  | [], _ => 0
  | a :: l, x => if a = x then 0 else idxOf l x + 1

theorem idxOf_append_left {x : String} :
    ∀ {l : List String} (l' : List String), x ∈ l →
    idxOf (l ++ l') x = idxOf l x := by
  intro l
  induction l with
  | nil => intro l' h; cases h
  | cons a l2 ih =>
    intro l' h
    simp only [List.cons_append, idxOf]
    split
    · rfl
    · rename_i hne
      rcases List.mem_cons.mp h with rfl | h2
      · exact absurd rfl hne
      · exact congrArg (· + 1) (ih l' h2)

theorem idxOf_lt_length {x : String} :
    ∀ {l : List String}, x ∈ l → idxOf l x < l.length := by
  intro l
  induction l with
  | nil => intro h; cases h
  | cons a l2 ih =>
    intro h
    simp only [idxOf, List.length_cons]
    split
    · omega
    · rename_i hne
      rcases List.mem_cons.mp h with rfl | h2
      · exact absurd rfl hne
      · exact Nat.succ_lt_succ (ih h2)

theorem idxOf_append_self {x : String} :
    ∀ {l : List String}, ¬ x ∈ l → idxOf (l ++ [x]) x = l.length := by
  intro l
  induction l with
  | nil => intro _; simp [idxOf]
  | cons a l2 ih =>
    intro h
    simp only [List.cons_append, idxOf, List.length_cons]
    rw [if_neg]
    · exact congrArg (· + 1) (ih (fun hc => h (List.mem_cons_of_mem _ hc)))
    · intro e
      exact h (e ▸ List.mem_cons_self _ _)

theorem dedupAux_nodup {α : Type} [BEq α] [LawfulBEq α] :
    ∀ (l seen : List α), (dedupAux seen l).Nodup := by
  intro l
  induction l with
  | nil => intro seen; simp [dedupAux]
  | cons x l2 ih =>
    intro seen
    simp only [dedupAux]
    split
    · exact ih seen
    · rename_i hx
      rw [List.nodup_cons]
      refine ⟨?_, ih (x :: seen)⟩
      intro hc
      rw [mem_dedupAux] at hc
      exact hc.2 (List.mem_cons_self _ _)

theorem dedupFirst_nodup {α : Type} [BEq α] [LawfulBEq α] (l : List α) :
    (dedupFirst l).Nodup := dedupAux_nodup l []

theorem dedupAux_eq_self {α : Type} [BEq α] [LawfulBEq α] :
    ∀ (l seen : List α), l.Nodup → (∀ x ∈ l, ¬ x ∈ seen) →
    dedupAux seen l = l := by
  intro l
  induction l with
  | nil => intro seen _ _; rfl
  | cons x l2 ih =>
    intro seen hnd hdisj
    simp only [dedupAux]
    rw [if_neg, ih (x :: seen) (List.nodup_cons.mp hnd).2]
    · intro y hy
      intro hc
      rcases List.mem_cons.mp hc with rfl | hc2
      · exact (List.nodup_cons.mp hnd).1 hy
      · exact hdisj y (List.mem_cons_of_mem _ hy) hc2
    · intro hc
      exact hdisj x (List.mem_cons_self _ _) (by simpa using hc)

theorem dedupFirst_eq_self {α : Type} [BEq α] [LawfulBEq α] {l : List α}
    (h : l.Nodup) : dedupFirst l = l :=
  dedupAux_eq_self l [] h (by simp)

theorem mem_dependentsOf (names : List String) (m : InheritMap)
    (p c : String) :
    c ∈ dependentsOf names m p ↔ c ∈ names ∧ edgeOf names m c = some p := by
  unfold dependentsOf
  rw [mem_dedupFirst, List.mem_filter]
  simp

/-- The inner fold over `dependents[current]`: pointwise removal of
`current` from every processed child's dependency set, and the children
whose set emptied appended to the queue in processing order. -/
theorem freeChild_fold (current : String) :
    ∀ (C : List String) (deps : String → List String) (q : List String),
    C.Nodup →
    ((C.foldl (fun dq child => freeChild current child dq) (deps, q)).1 =
      fun s => if C.contains s then (deps s).filter (fun p => p != current)
               else deps s) ∧
    (C.foldl (fun dq child => freeChild current child dq) (deps, q)).2 =
      q ++ C.filter
        (fun c => ((deps c).filter (fun p => p != current)).isEmpty) := by
  intro C
  induction C with
  | nil =>
    intro deps q _
    exact ⟨funext fun s => by simp, by simp⟩
  | cons c C2 ih =>
    intro deps q hnd
    have hcC2 : ¬ c ∈ C2 := (List.nodup_cons.mp hnd).1
    have hstate : freeChild current c (deps, q) =
        (fun s => if s = c then (deps c).filter (fun p => p != current)
                  else deps s,
         if ((deps c).filter (fun p => p != current)).isEmpty then q ++ [c]
         else q) := by
      simp [freeChild]
    rw [List.foldl_cons, hstate]
    obtain ⟨ihf, ihs⟩ := ih _ _ (List.nodup_cons.mp hnd).2
    constructor
    · rw [ihf]
      funext s
      by_cases hsc : s = c
      · subst hsc
        have hc2 : C2.contains s = false := by simpa using hcC2
        simp [hc2]
      · have hhd : (c :: C2).contains s = C2.contains s := by
          simp
          intro e
          exact absurd e hsc
        rw [hhd]
        by_cases hs2 : s ∈ C2
        · have : C2.contains s = true := by simpa using hs2
          simp [this, hsc]
        · have : C2.contains s = false := by simpa using hs2
          simp [this, hsc]
    · rw [ihs]
      have hfe : C2.filter
            (fun x => (((if x = c then (deps c).filter (fun p => p != current)
                         else deps x) :
                List String).filter (fun p => p != current)).isEmpty) =
          C2.filter
            (fun x => ((deps x).filter (fun p => p != current)).isEmpty) := by
        apply List.filter_congr
        intro x hx
        have hxc : ¬ x = c := fun e => hcC2 (e ▸ hx)
        simp [hxc]
      rw [hfe, List.filter_cons]
      by_cases he : ((deps c).filter (fun p => p != current)).isEmpty
      · simp [he]
      · simp [he]

theorem mem_depsInit (names : List String) (m : InheritMap) (s p : String) :
    p ∈ depsInit names m s ↔ edgeOf names m s = some p := by
  unfold depsInit
  cases edgeOf names m s <;> simp [Option.toList, eq_comm]

/-- The loop invariant of Kahn's algorithm as embedded in `kahnLoop`:
the emitted order and the queue are disjoint known sections without
duplicates, the dependency sets are the initial edges minus the emitted
sections, every enqueued or emitted section has its (unique, optional)
dependency already emitted, and every emitted section follows its
dependency. -/
structure KahnInv (names : List String) (m : InheritMap)
    (srt queue : List String) (deps : String → List String) : Prop where
  nd : (srt ++ queue).Nodup
  sub : ∀ s, s ∈ srt ++ queue → s ∈ names
  dchar : ∀ s, s ∈ names →
    deps s = (depsInit names m s).filter (fun p => !srt.contains p)
  reach : ∀ s, s ∈ srt ++ queue → ∀ p, p ∈ depsInit names m s → p ∈ srt
  srt_ord : ∀ s, s ∈ srt → ∀ p, p ∈ depsInit names m s →
    idxOf srt p < idxOf srt s

/-- What the Kahn phase guarantees of its output, whatever the fuel:
distinct known sections, and every emitted section's dependency is
emitted strictly before it. -/
def KahnGood (names : List String) (m : InheritMap) (out : List String) :
    Prop :=
  out.Nodup ∧ (∀ s, s ∈ out → s ∈ names) ∧
  ∀ s, s ∈ out → ∀ p, p ∈ depsInit names m s →
    p ∈ out ∧ idxOf out p < idxOf out s

theorem KahnInv.good {names : List String} {m : InheritMap}
    {srt queue : List String} {deps : String → List String}
    (h : KahnInv names m srt queue deps) : KahnGood names m srt :=
  ⟨h.nd.of_append_left,
   fun s hs => h.sub s (List.mem_append_left _ hs),
   fun s hs p hp =>
     ⟨h.reach s (List.mem_append_left _ hs) p hp, h.srt_ord s hs p hp⟩⟩

theorem kahnLoop_good (names : List String) (m : InheritMap) :
    ∀ (fuel : Nat) (srt queue : List String) (deps : String → List String),
    KahnInv names m srt queue deps →
    KahnGood names m (kahnLoop names m fuel srt queue deps) := by
  intro fuel
  induction fuel with
  | zero => intro srt queue deps h; exact h.good
  | succ fuel ih =>
    intro srt queue deps h
    match queue with
    | [] => exact h.good
    | current :: qrest =>
      have hCnd : (dependentsOf names m current).Nodup := dedupFirst_nodup _
      obtain ⟨hf1, hf2⟩ :=
        freeChild_fold current (dependentsOf names m current) deps qrest hCnd
      have hstep : kahnLoop names m (fuel + 1) srt (current :: qrest) deps =
          kahnLoop names m fuel (srt ++ [current])
            ((dependentsOf names m current).foldl
              (fun dq child => freeChild current child dq) (deps, qrest)).2
            ((dependentsOf names m current).foldl
              (fun dq child => freeChild current child dq) (deps, qrest)).1 :=
        rfl
      rw [hstep, hf1, hf2]
      have hcu_q : current ∈ srt ++ current :: qrest :=
        List.mem_append_right _ (List.mem_cons_self _ _)
      have hcu_names : current ∈ names := h.sub current hcu_q
      have hcu_srt : ¬ current ∈ srt := by
        intro hc
        exact (List.nodup_append.mp h.nd).2.2 hc (List.mem_cons_self _ _)
      have hEmem : ∀ c, c ∈ (dependentsOf names m current).filter
            (fun c => ((deps c).filter (fun p => p != current)).isEmpty) →
          c ∈ names ∧ edgeOf names m c = some current := by
        intro c hc
        exact (mem_dependentsOf names m current c).mp
          (List.mem_of_mem_filter hc)
      have hEdeps : ∀ c ∈ (dependentsOf names m current).filter
            (fun c => ((deps c).filter (fun p => p != current)).isEmpty),
          depsInit names m c = [current] := by
        intro c hc
        unfold depsInit
        rw [(hEmem c hc).2]
        rfl
      have hEfresh : ∀ c ∈ (dependentsOf names m current).filter
            (fun c => ((deps c).filter (fun p => p != current)).isEmpty),
          ¬ c ∈ srt ++ current :: qrest := by
        intro c hc hmem
        apply hcu_srt
        apply h.reach c hmem current
        rw [hEdeps c hc]
        exact List.mem_cons_self _ _
      apply ih
      constructor
      · have hre : (srt ++ [current]) ++
            (qrest ++ (dependentsOf names m current).filter
              (fun c => ((deps c).filter (fun p => p != current)).isEmpty)) =
            (srt ++ current :: qrest) ++ (dependentsOf names m current).filter
              (fun c => ((deps c).filter (fun p => p != current)).isEmpty) := by
          simp
        rw [hre]
        refine List.nodup_append.mpr ⟨h.nd, hCnd.filter _, ?_⟩
        intro a ha haE
        exact hEfresh a haE ha
      · intro s hs
        rcases List.mem_append.mp hs with hs1 | hs2
        · rcases List.mem_append.mp hs1 with hss | hsc
          · exact h.sub s (List.mem_append_left _ hss)
          · rw [List.mem_singleton] at hsc
            subst hsc
            exact hcu_names
        · rcases List.mem_append.mp hs2 with hsq | hsE
          · exact h.sub s
              (List.mem_append_right _ (List.mem_cons_of_mem _ hsq))
          · exact (hEmem s hsE).1
      · intro s hsn
        by_cases hsC : s ∈ dependentsOf names m current
        · have hcontains : (dependentsOf names m current).contains s = true :=
            by simpa using hsC
          have hedge : edgeOf names m s = some current :=
            ((mem_dependentsOf names m current s).mp hsC).2
          have hdi : depsInit names m s = [current] := by
            unfold depsInit
            rw [hedge]
            rfl
          have h1 : srt.contains current = false := by simpa using hcu_srt
          simp only [hcontains, if_true, h.dchar s hsn, hdi]
          simp [List.filter, h1, hcu_srt]
        · have hcontains : (dependentsOf names m current).contains s = false :=
            by simpa using hsC
          simp only [hcontains, Bool.false_eq_true, if_false, h.dchar s hsn]
          apply List.filter_congr
          intro p hp
          have hpc : ¬ p = current := by
            intro e
            apply hsC
            apply (mem_dependentsOf names m current s).mpr
            refine ⟨hsn, ?_⟩
            have hthis := (mem_depsInit names m s p).mp hp
            rw [e] at hthis
            exact hthis
          have hca : (srt ++ [current]).contains p = srt.contains p := by
            simp [hpc]
          rw [hca]
      · intro s hs p hp
        rcases List.mem_append.mp hs with hs1 | hs2
        · rcases List.mem_append.mp hs1 with hss | hsc
          · exact List.mem_append_left _
              (h.reach s (List.mem_append_left _ hss) p hp)
          · rw [List.mem_singleton] at hsc
            subst hsc
            exact List.mem_append_left _ (h.reach s hcu_q p hp)
        · rcases List.mem_append.mp hs2 with hsq | hsE
          · exact List.mem_append_left _ (h.reach s
              (List.mem_append_right _ (List.mem_cons_of_mem _ hsq)) p hp)
          · rw [hEdeps s hsE] at hp
            rw [List.mem_singleton] at hp
            subst hp
            exact List.mem_append_right _ (List.mem_singleton_self _)
      · intro s hs p hp
        rcases List.mem_append.mp hs with hss | hsc
        · have hp_srt : p ∈ srt := h.reach s (List.mem_append_left _ hss) p hp
          rw [idxOf_append_left [current] hp_srt,
              idxOf_append_left [current] hss]
          exact h.srt_ord s hss p hp
        · rw [List.mem_singleton] at hsc
          rw [hsc] at hp ⊢
          have hp_srt : p ∈ srt := h.reach current hcu_q p hp
          rw [idxOf_append_left [current] hp_srt, idxOf_append_self hcu_srt]
          exact idxOf_lt_length hp_srt

theorem kahn_good (names : List String) (m : InheritMap)
    (hnd : names.Nodup) : KahnGood names m (kahn names m) := by
  apply kahnLoop_good
  constructor
  · rw [List.nil_append]
    exact hnd.filter _
  · intro s hs
    rw [List.nil_append] at hs
    exact (List.mem_filter.mp hs).1
  · intro s _
    simp
  · intro s hs p hp
    rw [List.nil_append] at hs
    have he : (depsInit names m s).isEmpty = true := (List.mem_filter.mp hs).2
    have : depsInit names m s = [] := by
      cases hd : depsInit names m s
      · rfl
      · rw [hd] at he
        simp at he
    rw [this] at hp
    cases hp
  · intro s hs
    cases hs

/-- C3 (amended): in the order returned by `topological_sort`, every
section scheduled by the Kahn phase appears strictly after its recorded
parent edge (a parent that is a known section name).  The original
claim — that this holds for every non-cyclic parent edge whose parent is
a known section — fails: a child whose parent sits inside a cycle is
never scheduled by Kahn and is emitted in discovery order among the
leftovers, possibly before its parent. -/
theorem topo_parent_before_child (names : List String) (m : InheritMap)
    (s p : String) (hnd : names.Nodup) (hs : s ∈ kahn names m)
    (hp : edgeOf names m s = some p) :
    idxOf (topological_sort names m) p <
      idxOf (topological_sort names m) s := by
  obtain ⟨_, _, h3⟩ := kahn_good names m hnd
  have hpd : p ∈ depsInit names m s := (mem_depsInit names m s p).mpr hp
  obtain ⟨hpk, hlt⟩ := h3 s hs p hpd
  show idxOf (kahn names m ++ dedupFirst
      (names.filter (fun s => !(kahn names m).contains s))) p <
    idxOf (kahn names m ++ dedupFirst
      (names.filter (fun s => !(kahn names m).contains s))) s
  rw [idxOf_append_left _ hpk, idxOf_append_left _ hs]
  exact hlt

/-- Counterexample to the original C3 claim: `C` has the non-cyclic
edge `C → B` (`C` is not on `B`'s parent chain, so the edge is not part
of a cycle) with `B` a known section name, yet `topological_sort`
returns `["C", "A", "B"]`, placing the parent `B` after the child `C`,
because `B` sits inside the cycle `A ↔ B` and so `C` is never freed. -/
theorem topo_parent_before_child_cex :
    edgeOf ["C", "A", "B"]
      [("C", some "B"), ("A", some "B"), ("B", some "A")] "C" = some "B" ∧
    ¬ "C" ∈ chainFromF
      [("C", some "B"), ("A", some "B"), ("B", some "A")] 4 [] (some "B") ∧
    ¬ idxOf (topological_sort ["C", "A", "B"]
        [("C", some "B"), ("A", some "B"), ("B", some "A")]) "B" <
      idxOf (topological_sort ["C", "A", "B"]
        [("C", some "B"), ("A", some "B"), ("B", some "A")]) "C" := by
  decide

/-- Witness for C3 (amended): with `B` inheriting from `A`, both are
scheduled by Kahn and `A` precedes `B` in the output. -/
theorem topo_parent_before_child_witness :
    (["A", "B"] : List String).Nodup ∧
    "B" ∈ kahn ["A", "B"] [("B", some "A")] ∧
    edgeOf ["A", "B"] [("B", some "A")] "B" = some "A" ∧
    idxOf (topological_sort ["A", "B"] [("B", some "A")]) "A" <
      idxOf (topological_sort ["A", "B"] [("B", some "A")]) "B" :=
  ⟨by decide, by decide, by decide,
   topo_parent_before_child ["A", "B"] [("B", some "A")] "B" "A"
     (by decide) (by decide) (by decide)⟩

/-- C5: for distinct section names, the output of `topological_sort` is
a permutation of the input — the Kahn phase emits distinct known
sections and the leftover pass appends every section not already
emitted, so nothing is dropped or duplicated and the sort never
fails. -/
theorem topological_sort_perm (names : List String) (m : InheritMap)
    (hnd : names.Nodup) : (topological_sort names m).Perm names := by
  obtain ⟨hknd, hksub, _⟩ := kahn_good names m hnd
  show (kahn names m ++ dedupFirst
      (names.filter (fun s => !(kahn names m).contains s))).Perm names
  have hfnd : (names.filter (fun s => !(kahn names m).contains s)).Nodup :=
    hnd.filter _
  rw [dedupFirst_eq_self hfnd]
  have hnd2 : (kahn names m ++
      names.filter (fun s => !(kahn names m).contains s)).Nodup := by
    refine List.nodup_append.mpr ⟨hknd, hfnd, ?_⟩
    intro a ha haf
    have hb := (List.mem_filter.mp haf).2
    have hnk : ¬ a ∈ kahn names m := by simpa using hb
    exact hnk ha
  apply (List.perm_ext_iff_of_nodup hnd2 hnd).mpr
  intro a
  rw [List.mem_append, List.mem_filter]
  constructor
  · rintro (hk | ⟨hn, _⟩)
    · exact hksub a hk
    · exact hn
  · intro hn
    by_cases hk : a ∈ kahn names m
    · exact Or.inl hk
    · refine Or.inr ⟨hn, ?_⟩
      simpa using hk

/-- Witness for C5 at a two-cycle: both sections survive into the
output as a permutation of the input. -/
theorem topological_sort_perm_witness :
    (["A", "B"] : List String).Nodup ∧
    (topological_sort ["A", "B"]
      [("A", some "B"), ("B", some "A")]).Perm ["A", "B"] :=
  ⟨by decide,
   topological_sort_perm ["A", "B"] [("A", some "B"), ("B", some "A")]
     (by decide)⟩

/-! ## C9: the entity change test -/

/-- The derived `BEq` on `Sum` agrees with propositional equality. -/
instance lawfulBEqSumNatString : LawfulBEq (Sum Nat String) where
  eq_of_beq {a b} h := by
    cases a <;> cases b
    · rename_i x y
      have h2 : (x == y) = true := h
      rw [eq_of_beq h2]
    · exact Bool.noConfusion h
    · exact Bool.noConfusion h
    · rename_i x y
      have h2 : (x == y) = true := h
      rw [eq_of_beq h2]
  rfl {a} := by
    cases a <;> rename_i x
    · show (x == x) = true
      exact LawfulBEq.rfl
    · show (x == x) = true
      exact LawfulBEq.rfl

theorem two_mem_length {α : Type} {l : List α} {a b : α}
    (ha : a ∈ l) (hb : b ∈ l) (hne : a ≠ b) : 1 < l.length := by
  match l with
  | [] => cases ha
  | [x] =>
    rw [List.mem_singleton] at ha hb
    exact absurd (ha.trans hb.symm) hne
  | x :: y :: t =>
    simp only [List.length_cons]
    omega

theorem dedup_two_iff {α : Type} [BEq α] [LawfulBEq α] (l : List α) :
    1 < (dedupFirst l).length ↔ ∃ a, a ∈ l ∧ ∃ b, b ∈ l ∧ a ≠ b := by
  constructor
  · intro h
    rcases hd : dedupFirst l with _ | ⟨x, _ | ⟨y, t⟩⟩
    · rw [hd] at h
      simp at h
    · rw [hd] at h
      simp at h
    · have hnd := dedupFirst_nodup l
      rw [hd] at hnd
      have hxy : x ≠ y := by
        intro e
        subst e
        exact (List.nodup_cons.mp hnd).1 (List.mem_cons_self _ _)
      have hx : x ∈ l := mem_dedupFirst.mp
        (by rw [hd]; exact List.mem_cons_self _ _)
      have hy : y ∈ l := mem_dedupFirst.mp
        (by rw [hd]; exact List.mem_cons_of_mem _ (List.mem_cons_self _ _))
      exact ⟨x, hx, y, hy, hxy⟩
  · rintro ⟨a, ha, b, hb, hne⟩
    exact two_mem_length (mem_dedupFirst.mpr ha) (mem_dedupFirst.mpr hb) hne

/-- The change test, characterised: two present versions with distinct
compared tuples, or an absent version alongside a present one. -/
theorem entityHasChanges_iff (vs : List (Option Entity)) :
    entityHasChanges vs = true ↔
      ((∃ a, some a ∈ vs ∧ ∃ b, some b ∈ vs ∧ tuple3 a ≠ tuple3 b) ∨
       (none ∈ vs ∧ ∃ x, some x ∈ vs)) := by
  simp only [entityHasChanges]
  rw [Bool.or_eq_true, Bool.and_eq_true, decide_eq_true_eq]
  apply or_congr
  · rw [dedup_two_iff (vs.filterMap (fun o => o.map tuple3))]
    constructor
    · rintro ⟨t1, ht1, t2, ht2, hne⟩
      rw [List.mem_filterMap] at ht1 ht2
      obtain ⟨o1, ho1, hm1⟩ := ht1
      obtain ⟨o2, ho2, hm2⟩ := ht2
      rw [Option.map_eq_some'] at hm1 hm2
      obtain ⟨a, rfl, ha⟩ := hm1
      obtain ⟨b, rfl, hb⟩ := hm2
      subst ha
      subst hb
      exact ⟨a, ho1, b, ho2, hne⟩
    · rintro ⟨a, ha, b, hb, hne⟩
      refine ⟨tuple3 a, ?_, tuple3 b, ?_, hne⟩
      · rw [List.mem_filterMap]
        exact ⟨some a, ha, rfl⟩
      · rw [List.mem_filterMap]
        exact ⟨some b, hb, rfl⟩
  · apply and_congr
    · rw [List.any_eq_true]
      constructor
      · rintro ⟨o, ho, hN⟩
        rw [Option.isNone_iff_eq_none] at hN
        exact hN ▸ ho
      · intro h
        exact ⟨none, h, rfl⟩
    · rw [List.any_eq_true]
      constructor
      · rintro ⟨o, ho, hS⟩
        obtain ⟨x, rfl⟩ := Option.isSome_iff_exists.mp hS
        exact ⟨x, ho⟩
      · rintro ⟨x, hx⟩
        exact ⟨some x, hx, rfl⟩

/-- C9: over the sorted version sequence, an entity id is collected
into `entities_with_changes` iff it occurs in some version and either
two versions where it is present carry different
`(type_index, bounding_box_xz, bounding_box_y)` tuples, or it is
absent from at least one version while present in another; an entity
with a constant tuple present in every version is not reported. -/
theorem entity_reported_iff (vd : List (String × VersionDoc)) (e : String) :
    e ∈ entitiesWithChanges vd ↔
      e ∈ allEntityIds vd ∧
      ((∃ a, some a ∈ entityVersions vd (sortedVersions vd) e ∧
          ∃ b, some b ∈ entityVersions vd (sortedVersions vd) e ∧
            tuple3 a ≠ tuple3 b) ∨
       (none ∈ entityVersions vd (sortedVersions vd) e ∧
        ∃ x, some x ∈ entityVersions vd (sortedVersions vd) e)) := by
  unfold entitiesWithChanges
  rw [List.mem_filter]
  exact and_congr Iff.rfl (entityHasChanges_iff _)
